import Mathlib

/-!
Verification development for the wiz2joplin synchronization engine.

The Python sources under `w2j/` are shallowly embedded here:

* Python strings are embedded as `List Char` (named `Str` below); Python
  string operations used by the source (`split`, `join`, slicing,
  `replace`) are defined on `List Char` mirroring Python semantics.
* `w2j/parser.py`: `tojoplinid`, `towizid`, `gen_ilstr`, `gen_end_ilstr`,
  `convert_joplin_body`, and the class `JoplinInternalLink`.
* `w2j/adapter.py`: `Location2Folder.__init__`, the `ConvertUtil` cache
  (modelled as one keyed store per table: the source keeps an sqlite table
  and an in-memory dict in lockstep through the same mutation methods),
  and the `Adapter` synchronization methods.
* `w2j/joplin.py` is part of the repository but absent from the sources
  provided; the Joplin Data API client is modelled from the
  specification's external-interface section (each such definition is
  marked `Modelled from the spec:`).

The ambient HTML-to-text library (`inscriptis.get_text`) is an external
collaborator; it is threaded through the embedding as an explicit
function parameter `gt`.
-/

/-- Python strings are sequences of characters. -/
abbrev Str := List Char

/-! ### Basic list lemmas used throughout -/

theorem take_len_append (a b : List Char) : (a ++ b).take a.length = a :=
  List.take_left a b

theorem drop_len_append (a b : List Char) : (a ++ b).drop a.length = b :=
  List.drop_left a b

theorem take_of_len_eq {a : List Char} (b : List Char) {n : Nat} (h : a.length = n) :
    (a ++ b).take n = a := by
  subst h; exact take_len_append a b

theorem drop_of_len_eq {a : List Char} (b : List Char) {n : Nat} (h : a.length = n) :
    (a ++ b).drop n = b := by
  subst h; exact drop_len_append a b

/-! ### Embedding of Python string primitives

`splitChar c s` mirrors Python `s.split(c)` for a one-character separator:
it always returns a nonempty list of groups, `""` splitting to `[""]`. -/

def splitChar (c : Char) : Str → List Str
  | [] => [[]]
  | x :: xs =>
    let r := splitChar c xs
    if x = c then [] :: r
    else (x :: r.headD []) :: r.tail

theorem splitChar_ne_nil (c : Char) (s : Str) : splitChar c s ≠ [] := by
  cases s with
  | nil => simp [splitChar]
  | cons x xs =>
    simp only [splitChar]
    split <;> simp

theorem splitChar_cons_sep (c : Char) (xs : Str) :
    splitChar c (c :: xs) = [] :: splitChar c xs := by
  simp [splitChar]

theorem splitChar_cons_ne (c x : Char) (xs : Str) (h : x ≠ c) :
    splitChar c (x :: xs) =
      (x :: (splitChar c xs).headD []) :: (splitChar c xs).tail := by
  simp [splitChar, h]

/-- Splitting a separator-free group followed by a separator peels the group off. -/
theorem splitChar_append_sep (c : Char) (a r : Str) (ha : c ∉ a) :
    splitChar c (a ++ c :: r) = a :: splitChar c r := by
  induction a with
  | nil => simpa using splitChar_cons_sep c r
  | cons x xs ih =>
    have hx : x ≠ c := by rintro rfl; exact ha (List.mem_cons_self x xs)
    have hxs : c ∉ xs := fun h => ha (List.mem_cons_of_mem x h)
    rw [List.cons_append, splitChar_cons_ne c x _ hx, ih hxs]
    simp

/-- Splitting a separator-free string yields a single group. -/
theorem splitChar_no_sep (c : Char) (a : Str) (ha : c ∉ a) :
    splitChar c a = [a] := by
  induction a with
  | nil => rfl
  | cons x xs ih =>
    have hx : x ≠ c := by rintro rfl; exact ha (List.mem_cons_self x xs)
    have hxs : c ∉ xs := fun h => ha (List.mem_cons_of_mem x h)
    rw [splitChar_cons_ne c x xs hx, ih hxs]
    simp

/-! ### `w2j/parser.py`: identifier conversion -/

/-- `towizid(id)`: re-insert hyphens at offsets 8, 12, 16, 20 of the
32-character Joplin id (Python slices `id[:8]`, `id[8:12]`, `id[12:16]`,
`id[16:20]`, `id[20:]` joined by `"-"`). -/
def towizid (id : Str) : Str :=
  let one := id.take 8
  let two := (id.drop 8).take 4
  let three := (id.drop 12).take 4
  let four := (id.drop 16).take 4
  let five := id.drop 20
  List.intercalate [ '-' ] [one, two, three, four, five]

/-- `tojoplinid(guid)`: strip the hyphens (`"".join(guid.split("-"))`). -/
def tojoplinid (guid : Str) : Str :=
  (splitChar '-' guid).flatten

/-- A canonical UUID character: a hexadecimal digit. -/
def hexChar (c : Char) : Bool :=
  c.isDigit || ( 'a' ≤ c && c ≤ 'f' ) || ( 'A' ≤ c && c ≤ 'F' )

theorem hexChar_hyphen_false : hexChar '-' = false := by decide

theorem hexChar_ne_hyphen {c : Char} (h : hexChar c = true) : c ≠ '-' := by
  intro rfl_h
  rw [rfl_h, hexChar_hyphen_false] at h
  cases h

theorem hyphen_notMem_of_hex {a : Str} (h : ∀ c ∈ a, hexChar c = true) :
    '-' ∉ a := by
  intro hmem
  exact hexChar_ne_hyphen (h _ hmem) rfl

theorem intercalate_pair (s x y : Str) :
    List.intercalate s [x, y] = x ++ s ++ y := by
  simp [List.intercalate, List.intersperse]

theorem intercalate_cons₂ (s x y : Str) (r : List Str) :
    List.intercalate s (x :: y :: r) = x ++ s ++ List.intercalate s (y :: r) := by
  simp [List.intercalate, List.intersperse]

/-- C3. Identifier conversion round-trips: for every canonical
hyphen-delimited UUID string (five hyphen-separated groups of 8, 4, 4, 4
and 12 hexadecimal characters), `towizid (tojoplinid guid) = guid`:
stripping the hyphens and re-inserting them at offsets 8, 12, 16, 20 of
the 32-character form reproduces the original string exactly. -/
theorem id_conversion_roundtrip (a b c d e : Str)
    (ha : a.length = 8) (hb : b.length = 4) (hc : c.length = 4)
    (hd : d.length = 4) (he : e.length = 12)
    (hhex : ∀ x ∈ a ++ b ++ c ++ d ++ e, hexChar x = true) :
    towizid (tojoplinid (a ++ '-' :: (b ++ '-' :: (c ++ '-' :: (d ++ '-' :: e))))) =
      a ++ '-' :: (b ++ '-' :: (c ++ '-' :: (d ++ '-' :: e))) := by
  have hna : '-' ∉ a := hyphen_notMem_of_hex fun x hx => hhex x (by simp [hx])
  have hnb : '-' ∉ b := hyphen_notMem_of_hex fun x hx => hhex x (by simp [hx])
  have hnc : '-' ∉ c := hyphen_notMem_of_hex fun x hx => hhex x (by simp [hx])
  have hnd : '-' ∉ d := hyphen_notMem_of_hex fun x hx => hhex x (by simp [hx])
  have hne : '-' ∉ e := hyphen_notMem_of_hex fun x hx => hhex x (by simp [hx])
  have hsplit :
      splitChar '-' (a ++ '-' :: (b ++ '-' :: (c ++ '-' :: (d ++ '-' :: e)))) =
        [a, b, c, d, e] := by
    rw [splitChar_append_sep _ _ _ hna, splitChar_append_sep _ _ _ hnb,
      splitChar_append_sep _ _ _ hnc, splitChar_append_sep _ _ _ hnd,
      splitChar_no_sep _ _ hne]
  have hjoin :
      tojoplinid (a ++ '-' :: (b ++ '-' :: (c ++ '-' :: (d ++ '-' :: e)))) =
        a ++ (b ++ (c ++ (d ++ e))) := by
    rw [tojoplinid, hsplit]
    simp
  rw [hjoin, towizid]
  have h8 : (a ++ (b ++ (c ++ (d ++ e)))).take 8 = a := take_of_len_eq _ ha
  have hd8 : (a ++ (b ++ (c ++ (d ++ e)))).drop 8 = b ++ (c ++ (d ++ e)) :=
    drop_of_len_eq _ ha
  have h12 : (a ++ (b ++ (c ++ (d ++ e)))).drop 12 = c ++ (d ++ e) := by
    have : (a ++ b).length = 12 := by simp [ha, hb]
    calc (a ++ (b ++ (c ++ (d ++ e)))).drop 12
        = ((a ++ b) ++ (c ++ (d ++ e))).drop 12 := by simp
      _ = c ++ (d ++ e) := drop_of_len_eq _ this
  have h16 : (a ++ (b ++ (c ++ (d ++ e)))).drop 16 = d ++ e := by
    have : (a ++ b ++ c).length = 16 := by simp [ha, hb, hc]
    calc (a ++ (b ++ (c ++ (d ++ e)))).drop 16
        = ((a ++ b ++ c) ++ (d ++ e)).drop 16 := by simp
      _ = d ++ e := drop_of_len_eq _ this
  have h20 : (a ++ (b ++ (c ++ (d ++ e)))).drop 20 = e := by
    have : (a ++ b ++ c ++ d).length = 20 := by simp [ha, hb, hc, hd]
    calc (a ++ (b ++ (c ++ (d ++ e)))).drop 20
        = ((a ++ b ++ c ++ d) ++ e).drop 20 := by simp
      _ = e := drop_of_len_eq _ this
  rw [h8, hd8, h12, h16, h20, take_of_len_eq _ hb, take_of_len_eq _ hc,
    take_of_len_eq _ hd]
  rw [intercalate_cons₂, intercalate_cons₂, intercalate_cons₂, intercalate_pair]
  simp

/-- Witness for C3 at the concrete UUID 8337764c-f89d-4267-bdf2-2e26ff156098. -/
theorem id_conversion_roundtrip_witness :
    towizid (tojoplinid ("8337764c".toList ++ '-' :: ("f89d".toList ++ '-' ::
        ("4267".toList ++ '-' :: ("bdf2".toList ++ '-' :: "2e26ff156098".toList))))) =
      "8337764c".toList ++ '-' :: ("f89d".toList ++ '-' ::
        ("4267".toList ++ '-' :: ("bdf2".toList ++ '-' :: "2e26ff156098".toList))) :=
  id_conversion_roundtrip "8337764c".toList "f89d".toList "4267".toList
    "bdf2".toList "2e26ff156098".toList (by decide) (by decide) (by decide)
    (by decide) (by decide) (by decide)

/-! ### Embedding of Python `str.replace` and `str.count`

Python `body.replace(old, new)` replaces all non-overlapping occurrences
left-to-right.  The source only ever calls it with a nonempty `old`
(guarded by `if jil.outertext:`); an empty pattern performs no
replacement here. -/

def replaceList (pat rep : Str) : Str → Str
  | [] => []
  | x :: xs =>
    if pat ≠ [] ∧ pat.isPrefixOf (x :: xs) then
      rep ++ replaceList pat rep ((x :: xs).drop pat.length)
    else
      x :: replaceList pat rep xs
termination_by s => s.length
decreasing_by
  · rename_i h
    have hp : 0 < pat.length := List.length_pos.mpr h.1
    simp only [List.length_drop, List.length_cons]
    omega
  · simp

/-- Count of non-overlapping occurrences, mirroring the same scan. -/
def countOccur (pat : Str) : Str → Nat
  | [] => 0
  | x :: xs =>
    if pat ≠ [] ∧ pat.isPrefixOf (x :: xs) then
      1 + countOccur pat ((x :: xs).drop pat.length)
    else
      countOccur pat xs
termination_by s => s.length
decreasing_by
  · rename_i h
    have hp : 0 < pat.length := List.length_pos.mpr h.1
    simp only [List.length_drop, List.length_cons]
    omega
  · simp

theorem replaceList_nil (pat rep : Str) : replaceList pat rep [] = [] := by
  simp [replaceList]

theorem replaceList_pos (pat rep : Str) (x : Char) (xs : Str)
    (h1 : pat ≠ []) (h2 : pat.isPrefixOf (x :: xs)) :
    replaceList pat rep (x :: xs) =
      rep ++ replaceList pat rep ((x :: xs).drop pat.length) := by
  rw [replaceList]
  simp [h1, h2]

theorem replaceList_neg (pat rep : Str) (x : Char) (xs : Str)
    (h : ¬ (pat ≠ [] ∧ pat.isPrefixOf (x :: xs))) :
    replaceList pat rep (x :: xs) = x :: replaceList pat rep xs := by
  rw [replaceList]
  simp only [if_neg h]

theorem countOccur_nil (pat : Str) : countOccur pat [] = 0 := by
  simp [countOccur]

theorem countOccur_pos (pat : Str) (x : Char) (xs : Str)
    (h1 : pat ≠ []) (h2 : pat.isPrefixOf (x :: xs)) :
    countOccur pat (x :: xs) =
      1 + countOccur pat ((x :: xs).drop pat.length) := by
  rw [countOccur]
  simp [h1, h2]

theorem countOccur_neg (pat : Str) (x : Char) (xs : Str)
    (h : ¬ (pat ≠ [] ∧ pat.isPrefixOf (x :: xs))) :
    countOccur pat (x :: xs) = countOccur pat xs := by
  rw [countOccur]
  simp only [if_neg h]

theorem subset_of_inf {pat s : Str} (h : pat <:+: s) : ∀ c ∈ pat, c ∈ s :=
  fun _ hc => h.sublist.subset hc

theorem not_inf_of_mem_notMem {c : Char} {pat s : Str}
    (hc : c ∈ pat) (hs : c ∉ s) : ¬ pat <:+: s :=
  fun h => hs (subset_of_inf h c hc)

theorem countOccur_eq_zero_of_not_inf {pat : Str} :
    ∀ {s : Str}, ¬ pat <:+: s → countOccur pat s = 0 := by
  intro s
  induction s with
  | nil => intro _; exact countOccur_nil pat
  | cons x xs ih =>
    intro h
    have hnp : ¬ pat.isPrefixOf (x :: xs) := by
      intro hp
      exact h (List.isPrefixOf_iff_prefix.mp hp).isInfix
    rw [countOccur_neg pat x xs (by simp [hnp])]
    exact ih fun hx => h (List.infix_cons hx)

theorem replaceList_eq_self_of_not_inf {pat rep : Str} :
    ∀ {s : Str}, ¬ pat <:+: s → replaceList pat rep s = s := by
  intro s
  induction s with
  | nil => intro _; exact replaceList_nil pat rep
  | cons x xs ih =>
    intro h
    have hnp : ¬ pat.isPrefixOf (x :: xs) := by
      intro hp
      exact h (List.isPrefixOf_iff_prefix.mp hp).isInfix
    rw [replaceList_neg pat rep x xs (by simp [hnp])]
    rw [ih fun hx => h (List.infix_cons hx)]

/-- An occurrence of a pattern with head `b` inside `S ++ R` with `b ∉ S`
lies entirely inside `R`. -/
theorem headBad_inf_append {b : Char} {t S R : Str} (hbS : b ∉ S)
    (h : (b :: t) <:+: S ++ R) : (b :: t) <:+: R := by
  induction S with
  | nil => simpa using h
  | cons s S' ih =>
    have hbs : b ≠ s := by rintro rfl; exact hbS (List.mem_cons_self b S')
    have hbS' : b ∉ S' := fun hx => hbS (List.mem_cons_of_mem s hx)
    rw [List.cons_append] at h
    rcases List.infix_cons_iff.mp h with hpre | hinf
    · exact absurd (List.cons_prefix_cons.mp hpre).1 hbs
    · exact ih hbS' hinf

/-- An occurrence of `b :: t` inside `(b :: t') ++ R` with `b ∉ t'` either
starts at the very front or lies entirely inside `R`. -/
theorem headBad_inf_cons_append {b : Char} {t t' R : Str} (hbt' : b ∉ t')
    (h : (b :: t) <:+: (b :: t') ++ R) :
    (b :: t) <+: (b :: t') ++ R ∨ (b :: t) <:+: R := by
  rw [List.cons_append] at h
  rcases List.infix_cons_iff.mp h with hpre | hinf
  · exact Or.inl (by simpa using hpre)
  · exact Or.inr (headBad_inf_append hbt' hinf)

/-- Replacing inside `A ++ (pat ++ B)`, when no occurrence of `pat` starts
before position `A.length`, rewrites the marked occurrence and continues
in `B`. -/
theorem replaceList_append_pat (pat rep : Str) :
    ∀ (A B : Str), ¬ pat <:+: A ++ pat.dropLast →
      replaceList pat rep (A ++ (pat ++ B)) = A ++ (rep ++ replaceList pat rep B) := by
  intro A
  induction A with
  | nil =>
    intro B hA
    have hpne : pat ≠ [] := by
      rintro rfl
      exact hA List.nil_infix
    obtain ⟨p, pr, rfl⟩ : ∃ p pr, pat = p :: pr := by
      cases pat with
      | nil => exact absurd rfl hpne
      | cons p pr => exact ⟨p, pr, rfl⟩
    show replaceList (p :: pr) rep (p :: (pr ++ B)) = rep ++ replaceList (p :: pr) rep B
    rw [replaceList_pos _ rep p (pr ++ B) hpne
      (List.isPrefixOf_iff_prefix.mpr (List.prefix_append (p :: pr) B))]
    have hdrop : ((p :: pr) ++ B).drop (p :: pr).length = B := drop_len_append _ _
    rw [show (p :: (pr ++ B)).drop (p :: pr).length = B from hdrop]
  | cons x A' ih =>
    intro B hA
    have hne : pat ≠ [] := by
      rintro rfl
      exact hA List.nil_infix
    have hnp : ¬ pat.isPrefixOf (x :: (A' ++ (pat ++ B))) := by
      intro hp
      have hpre : pat <+: x :: (A' ++ (pat ++ B)) :=
        List.isPrefixOf_iff_prefix.mp hp
      have hEq : x :: (A' ++ (pat ++ B)) =
          (x :: (A' ++ pat.dropLast)) ++ (pat.getLast hne :: B) := by
        conv_lhs => rw [← List.dropLast_append_getLast hne]
        simp
      have hpre9 : pat <+: (x :: (A' ++ pat.dropLast)) ++ (pat.getLast hne :: B) :=
        hEq ▸ hpre
      have hlen : pat.length ≤ (x :: (A' ++ pat.dropLast)).length := by
        have : 0 < pat.length := List.length_pos.mpr hne
        simp only [List.length_cons, List.length_append, List.length_dropLast]
        omega
      have hpre2 : pat <+: x :: (A' ++ pat.dropLast) :=
        List.prefix_of_prefix_length_le hpre9 (List.prefix_append _ _) hlen
      exact hA hpre2.isInfix
    have hA' : ¬ pat <:+: A' ++ pat.dropLast := by
      intro hx
      exact hA (List.infix_cons hx)
    show replaceList pat rep (x :: (A' ++ (pat ++ B))) =
      x :: (A' ++ (rep ++ replaceList pat rep B))
    rw [replaceList_neg pat rep x _ (by simp [hnp])]
    rw [ih B hA']

/-! ### Counting target-addressed forms

Every Joplin target-addressed link form produced by `gen_ilstr` contains
the resource-address marker `:/` exactly once (as long as titles and
resource ids are free of `:`), so counting occurrences of the marker
counts target-addressed forms. -/

def resMarker : Str := [ ':' , '/' ]

theorem count2_zero {s : Str} (h : ':' ∉ s) : countOccur resMarker s = 0 :=
  countOccur_eq_zero_of_not_inf
    (not_inf_of_mem_notMem (by simp [resMarker]) h)

theorem getLast?_ne_of_notMem {s : Str} (h : ':' ∉ s) :
    s.getLast? ≠ some ':' := by
  intro hlast
  exact h (List.mem_of_mem_getLast? hlast)

theorem count2_append :
    ∀ (X Y : Str), X.getLast? ≠ some ':' →
      countOccur resMarker (X ++ Y) =
        countOccur resMarker X + countOccur resMarker Y := by
  have main : ∀ (n : Nat) (X : Str), X.length ≤ n → ∀ (Y : Str),
      X.getLast? ≠ some ':' →
      countOccur resMarker (X ++ Y) =
        countOccur resMarker X + countOccur resMarker Y := by
    intro n
    induction n with
    | zero =>
      intro X hX Y _
      have : X = [] := List.length_eq_zero.mp (Nat.le_zero.mp hX)
      subst this
      simp [countOccur_nil]
    | succ n ih =>
      intro X hX Y hlast
      match X with
      | [] => simp [countOccur_nil]
      | [x] =>
        have hx : x ≠ ':' := by
          intro hx
          exact hlast (by simp [hx])
        have hnp1 : ¬ resMarker.isPrefixOf [x] := by
          simp [resMarker, List.isPrefixOf]
        have hnp2 : ¬ resMarker.isPrefixOf (x :: Y) := by
          simp [resMarker, List.isPrefixOf]
          intro h
          exact absurd h.symm hx
        rw [List.cons_append, List.nil_append,
          countOccur_neg _ x Y (by simp [hnp2]),
          countOccur_neg _ x [] (by simp [hnp1]), countOccur_nil]
        simp
      | x :: x' :: X'' =>
        by_cases hpre : x = ':' ∧ x' = '/'
        · obtain ⟨rfl, rfl⟩ := hpre
          have hp1 : resMarker.isPrefixOf (':' :: '/' :: X'') := by
            simp [resMarker, List.isPrefixOf]
          have hp2 : resMarker.isPrefixOf (':' :: '/' :: (X'' ++ Y)) := by
            simp [resMarker, List.isPrefixOf]
          have hres : resMarker ≠ [] := by simp [resMarker]
          rw [List.cons_append, List.cons_append,
            countOccur_pos _ _ _ hres hp2, countOccur_pos _ _ _ hres hp1]
          have hdrop2 : (':' :: '/' :: (X'' ++ Y)).drop resMarker.length = X'' ++ Y := by
            simp [resMarker]
          have hdrop1 : (':' :: '/' :: X'').drop resMarker.length = X'' := by
            simp [resMarker]
          rw [hdrop2, hdrop1]
          match X'' with
          | [] => simp [countOccur_nil]
          | z :: Z =>
            have hlen : (z :: Z).length ≤ n := by
              simp only [List.length_cons] at hX ⊢
              omega
            have hlast' : (z :: Z).getLast? ≠ some ':' := by
              rw [List.getLast?_cons_cons, List.getLast?_cons_cons] at hlast
              exact hlast
            rw [ih (z :: Z) hlen Y hlast']
            omega
        · have hnp1 : ¬ resMarker.isPrefixOf (x :: x' :: X'') := by
            simp only [resMarker, List.isPrefixOf, Bool.and_eq_true, beq_iff_eq]
            rintro ⟨h1, h2, -⟩
            exact hpre ⟨h1.symm, h2.symm⟩
          have hnp2 : ¬ resMarker.isPrefixOf (x :: x' :: (X'' ++ Y)) := by
            simp only [resMarker, List.isPrefixOf, Bool.and_eq_true, beq_iff_eq]
            rintro ⟨h1, h2, -⟩
            exact hpre ⟨h1.symm, h2.symm⟩
          rw [List.cons_append,
            countOccur_neg _ x _ (by simp [hnp2]),
            countOccur_neg _ x _ (by simp [hnp1])]
          have hlen : (x' :: X'').length ≤ n := by
            simp only [List.length_cons] at hX ⊢
            omega
          have hlast' : (x' :: X'').getLast? ≠ some ':' := by
            rw [List.getLast?_cons_cons] at hlast
            exact hlast
          exact ih (x' :: X'') hlen Y hlast'
  intro X Y h
  exact main X.length X (Nat.le_refl _) Y h

/-- A string with a single colon, immediately followed by a slash, has
marker count one. -/
theorem count2_single (P R : Str) (hP : ':' ∉ P) (hR : ':' ∉ R) :
    countOccur resMarker (P ++ ':' :: '/' :: R) = 1 := by
  induction P with
  | nil =>
    have hp : resMarker.isPrefixOf (':' :: '/' :: R) := by
      simp [resMarker, List.isPrefixOf]
    rw [List.nil_append, countOccur_pos _ _ _ (by simp [resMarker]) hp]
    have hdrop : (':' :: '/' :: R).drop resMarker.length = R := by
      simp [resMarker]
    rw [hdrop, count2_zero hR]
  | cons p P' ih =>
    have hp : p ≠ ':' := by
      rintro rfl
      exact hP (List.mem_cons_self _ _)
    have hP' : ':' ∉ P' := fun h => hP (List.mem_cons_of_mem _ h)
    have hnp : ¬ resMarker.isPrefixOf (p :: (P' ++ ':' :: '/' :: R)) := by
      simp only [resMarker, List.isPrefixOf, Bool.and_eq_true, beq_iff_eq]
      rintro ⟨h1, -⟩
      exact hp h1.symm
    rw [List.cons_append, countOccur_neg _ p _ (by simp [hnp])]
    exact ih hP'

/-! ### `w2j/parser.py`: `JoplinInternalLink` and body conversion -/

/-- The class `JoplinInternalLink` of `w2j/parser.py`; `outertext`
defaults to the empty string in the Python constructor. -/
structure JoplinInternalLink where
  note_id : Str
  resource_id : Str
  title : Str
  link_type : Str
  outertext : Str := []
deriving DecidableEq, Repr

/-- The `id` property: `f"{note_id}-{resource_id}"`. -/
def JoplinInternalLink.id (jil : JoplinInternalLink) : Str :=
  jil.note_id ++ '-' :: jil.resource_id

/-- `gen_ilstr`: the target-addressed form substituted for an internal
link (Markdown reference syntax for markdown notes, HTML `img`/`a`
syntax otherwise; image references get the `!` / `img` marker). -/
def gen_ilstr (is_markdown : Bool) (jil : JoplinInternalLink) : Str :=
  if is_markdown then
    let body := "[".toList ++ jil.title ++ "](:/".toList ++ jil.resource_id ++ ")".toList
    if jil.link_type = "image".toList then '!' :: body else body
  else
    if jil.link_type = "image".toList then
      "<img src=\":/".toList ++ jil.resource_id ++ "\" alt=\"".toList ++
        jil.title ++ "\">".toList
    else
      "<a href=\":/".toList ++ jil.resource_id ++ "\">".toList ++
        jil.title ++ "</a>".toList

/-- `gen_end_ilstr`: the trailing block appended at the bottom of the
body, one labelled entry per link, under the fixed heading. -/
def gen_end_ilstr (is_markdown : Bool) (jils : List JoplinInternalLink) : Str :=
  if is_markdown then
    "\n\n# 附件链接\n\n".toList ++
      List.intercalate "\n".toList
        (jils.map fun jil => "- ".toList ++ gen_ilstr is_markdown jil)
  else
    let body := (jils.map fun jil =>
      "<li>".toList ++ gen_ilstr is_markdown jil ++ "</li>".toList).flatten
    "<br><br><h1>附件链接</h1><ul>".toList ++ body ++ "</ul>".toList

/-- The attachment link kind `"open_attachment"`. -/
def attachType : Str := "open_attachment".toList

/-- One iteration of the loop in `convert_joplin_body`: substitute the
link's literal text when it is nonempty (Python string truthiness), and
collect every `open_attachment` link for the trailing block. -/
def convertStep (is_markdown : Bool) (acc : Str × List JoplinInternalLink)
    (jil : JoplinInternalLink) : Str × List JoplinInternalLink :=
  let b := if jil.outertext ≠ [] then
      replaceList jil.outertext (gen_ilstr is_markdown jil) acc.1
    else acc.1
  let e := if jil.link_type = attachType then acc.2 ++ [jil] else acc.2
  (b, e)

/-- `convert_joplin_body`.  The external HTML-to-text collaborator
(`inscriptis.get_text`, applied to markdown bodies after substitution)
is passed in as `gt`. -/
def convert_joplin_body (gt : Str → Str) (body : Str) (is_markdown : Bool)
    (internal_links : List JoplinInternalLink) : Str :=
  let p := internal_links.foldl (convertStep is_markdown) (body, [])
  let b := if is_markdown then gt p.1 else p.1
  if p.2 ≠ [] then b ++ gen_end_ilstr is_markdown p.2 else b

/-! ### `w2j/adapter.py`: `Location2Folder` -/

/-- The intermediate record relating a WizNote location to a Joplin
folder (class `Location2Folder`). -/
structure Location2Folder where
  location : Str
  title : Str
  parent_location : Option Str
  level : Nat
  id : Option Str
  parent_id : Option Str
deriving DecidableEq, Repr

/-- `Location2Folder.__init__` in the `title is None` branch: strip the
first and last character (`location[1:-1]`), split on `/`; the level is
the segment count, the title the last segment (`titles[-1]`; `split`
always returns a nonempty list), and the parent location re-wraps all
but the last segment when the level exceeds one. -/
def Location2Folder.ofLocation (location : Str) : Location2Folder :=
  let titles := splitChar '/' ((location.drop 1).dropLast)
  { location := location
    level := titles.length
    title := titles.getLastD []
    parent_location :=
      if titles.length > 1 then
        some ( '/' :: (List.intercalate [ '/' ] titles.dropLast ++ [ '/' ]))
      else none
    id := none
    parent_id := none }

/-- C10. Location decomposition: for every delimiter-wrapped location
string `"/" ++ mid ++ "/"`, the chain entry built from it has title equal
to the final path segment, level equal to the number of segments of the
trimmed interior, and parent location equal to the slash-wrapped re-join
of all but the final segment when at least two segments remain, `none`
otherwise. -/
theorem location_decomposition (mid : Str) :
    (Location2Folder.ofLocation ( '/' :: (mid ++ [ '/' ]))).title =
        (splitChar '/' mid).getLastD [] ∧
      (Location2Folder.ofLocation ( '/' :: (mid ++ [ '/' ]))).level =
        (splitChar '/' mid).length ∧
      (Location2Folder.ofLocation ( '/' :: (mid ++ [ '/' ]))).parent_location =
        (if 2 ≤ (splitChar '/' mid).length then
          some ( '/' :: (List.intercalate [ '/' ] (splitChar '/' mid).dropLast ++ [ '/' ]))
        else none) := by
  have htrim : ((( '/' :: (mid ++ [ '/' ])) : Str).drop 1).dropLast = mid := by
    simp
  refine ⟨?_, ?_, ?_⟩ <;> simp only [Location2Folder.ofLocation, htrim]
  by_cases h : 1 < (splitChar '/' mid).length
  · rw [if_pos h, if_pos (by omega : 2 ≤ (splitChar '/' mid).length)]
  · rw [if_neg h, if_neg (by omega : ¬ 2 ≤ (splitChar '/' mid).length)]

/-! ### Structure of the `convert_joplin_body` loop -/

/-- The substitution component of the loop: replace each link's literal
text (when nonempty) in sequence. -/
def substFold (is_markdown : Bool) (body : Str)
    (links : List JoplinInternalLink) : Str :=
  links.foldl
    (fun b jil =>
      if jil.outertext ≠ [] then
        replaceList jil.outertext (gen_ilstr is_markdown jil) b
      else b)
    body

theorem convertFold_eq (is_markdown : Bool) :
    ∀ (links : List JoplinInternalLink) (body : Str)
      (acc : List JoplinInternalLink),
      links.foldl (convertStep is_markdown) (body, acc) =
        (substFold is_markdown body links,
          acc ++ links.filter (fun j => j.link_type = attachType)) := by
  intro links
  induction links with
  | nil => intro body acc; simp [substFold]
  | cons j rest ih =>
    intro body acc
    rw [List.foldl_cons]
    by_cases hatt : j.link_type = attachType
    · have hstep : convertStep is_markdown (body, acc) j =
          (if j.outertext ≠ [] then
            replaceList j.outertext (gen_ilstr is_markdown j) body
          else body, acc ++ [j]) := by
        simp only [convertStep, if_pos hatt]
      rw [hstep, ih]
      simp only [Prod.mk.injEq]
      refine ⟨rfl, ?_⟩
      simp [List.filter_cons, hatt]
    · have hstep : convertStep is_markdown (body, acc) j =
          (if j.outertext ≠ [] then
            replaceList j.outertext (gen_ilstr is_markdown j) body
          else body, acc) := by
        simp only [convertStep, if_neg hatt]
      rw [hstep, ih]
      simp only [Prod.mk.injEq]
      refine ⟨rfl, ?_⟩
      simp [List.filter_cons, hatt]

theorem substFold_filter_ne_empty (is_markdown : Bool) :
    ∀ (links : List JoplinInternalLink) (body : Str),
      substFold is_markdown body links =
        substFold is_markdown body (links.filter fun j => j.outertext ≠ []) := by
  intro links
  induction links with
  | nil => intro body; rfl
  | cons j rest ih =>
    intro body
    by_cases hj : j.outertext ≠ []
    · have hfil : (j :: rest).filter (fun j2 => j2.outertext ≠ []) =
          j :: rest.filter (fun j2 => j2.outertext ≠ []) := by
        simp [List.filter_cons, hj]
      rw [hfil]
      exact ih (if j.outertext ≠ [] then
        replaceList j.outertext (gen_ilstr is_markdown j) body else body)
    · have hfil : (j :: rest).filter (fun j2 => j2.outertext ≠ []) =
          rest.filter (fun j2 => j2.outertext ≠ []) := by
        simp [List.filter_cons, hj]
      rw [hfil]
      have hbody : (if j.outertext ≠ [] then
          replaceList j.outertext (gen_ilstr is_markdown j) body else body) = body :=
        if_neg hj
      calc substFold is_markdown body (j :: rest)
          = substFold is_markdown (if j.outertext ≠ [] then
              replaceList j.outertext (gen_ilstr is_markdown j) body else body)
              rest := rfl
        _ = substFold is_markdown body rest := by rw [hbody]
        _ = substFold is_markdown body (rest.filter fun j2 => j2.outertext ≠ []) :=
            ih body

/-- The whole conversion, decomposed: substitution phase, optional
external text normalization (markdown only), then the trailing block
for the collected attachment links when any exist. -/
theorem convert_joplin_body_decomp (gt : Str → Str) (body : Str)
    (is_markdown : Bool) (links : List JoplinInternalLink) :
    convert_joplin_body gt body is_markdown links =
      (let b := substFold is_markdown body links
       let b := if is_markdown then gt b else b
       let att := links.filter fun j => j.link_type = attachType
       if att ≠ [] then b ++ gen_end_ilstr is_markdown att else b) := by
  simp only [convert_joplin_body, convertFold_eq is_markdown links body []]
  simp

/-- C4 (amended). Every attachment-typed reference — whether or not its
literal text was substituted inline — is collected and appended exactly
once as an entry of the single trailing block under the fixed heading; a
reference with empty recorded literal text produces no inline
substitution; the block is appended once per note, after all
substitutions, whenever at least one attachment reference exists, even
when it holds a single entry. -/
theorem convert_body_trailing_block_amended (gt : Str → Str) (body : Str)
    (is_markdown : Bool) (links : List JoplinInternalLink)
    (hne : links.filter (fun j => j.link_type = attachType) ≠ []) :
    convert_joplin_body gt body is_markdown links =
        (if is_markdown then gt (substFold is_markdown body links)
          else substFold is_markdown body links) ++
          gen_end_ilstr is_markdown
            (links.filter fun j => j.link_type = attachType) ∧
      substFold is_markdown body links =
        substFold is_markdown body (links.filter fun j => j.outertext ≠ []) ∧
      ∀ j ∈ links, j.link_type = attachType →
        (links.filter fun j2 => j2.link_type = attachType).count j =
          links.count j := by
  refine ⟨?_, substFold_filter_ne_empty is_markdown links body, ?_⟩
  · rw [convert_joplin_body_decomp]
    simp only [if_pos hne]
  · intro j _ hatt
    exact List.count_filter (by simp [hatt])

/-- The concrete attachment link used to refute C4 as stated: its
literal text `"AT"` occurs in the body, so the claim predicts it is not
appended to the trailing block. -/
def c4jil : JoplinInternalLink :=
  { note_id := "n".toList
    resource_id := "r1".toList
    title := "t".toList
    link_type := "open_attachment".toList
    outertext := "AT".toList }

/-- C4 (counterexample to the claim as stated): for the body `"xATy"`
and the single attachment link `c4jil` whose literal `"AT"` is
substituted inline, the converted body nevertheless ends with the
trailing block containing an entry for that attachment — the claim's
prediction (no trailing entry for a substituted attachment, hence no
trailing block at all here) is false. -/
theorem convert_body_attachment_appended_despite_inline :
    convert_joplin_body id "xATy".toList false [c4jil] =
        "x<a href=\":/r1\">t</a>y".toList ++ gen_end_ilstr false [c4jil] ∧
      convert_joplin_body id "xATy".toList false [c4jil] ≠
        "x<a href=\":/r1\">t</a>y".toList := by
  constructor
  · simp [convert_joplin_body, convertStep, c4jil, attachType, replaceList,
      gen_ilstr]
  · intro h
    rw [show convert_joplin_body id "xATy".toList false [c4jil] =
        "x<a href=\":/r1\">t</a>y".toList ++ gen_end_ilstr false [c4jil] from by
      simp [convert_joplin_body, convertStep, c4jil, attachType, replaceList,
        gen_ilstr]] at h
    have hlen := congrArg List.length h
    simp [gen_end_ilstr, gen_ilstr, c4jil] at hlen

/-- Witness for the amended C4 at the counterexample input. -/
theorem convert_body_trailing_block_amended_witness :
    convert_joplin_body id "xATy".toList false [c4jil] =
      (if false then id (substFold false "xATy".toList [c4jil])
        else substFold false "xATy".toList [c4jil]) ++
        gen_end_ilstr false ([c4jil].filter fun j => j.link_type = attachType) :=
  (convert_body_trailing_block_amended id "xATy".toList false [c4jil]
    (by simp [c4jil, attachType])).1

/-! ### Bodies as interleavings of literal references and surrounding text

For the substitution-completeness analysis, a body holding the literal
texts of a list of links is presented as
`s0 ++ lit_1 ++ s1 ++ ... ++ lit_n ++ sn`. -/

def interleave (s0 : Str) (ps : List (Str × Str)) : Str :=
  s0 ++ (ps.map fun p => p.1 ++ p.2).flatten

theorem interleave_nil (s0 : Str) : interleave s0 [] = s0 := by
  simp [interleave]

theorem interleave_cons (s0 l s : Str) (ps : List (Str × Str)) :
    interleave s0 ((l, s) :: ps) = s0 ++ (l ++ (s ++ (ps.map fun p => p.1 ++ p.2).flatten)) := by
  simp [interleave]

/-- A literal headed by a character `bad` that appears in no surrounding
text, no replacement and only at the head of each literal, and that is
prefix-incomparable with every literal of the tail, occurs nowhere in the
tail of an interleaving. -/
theorem no_occ_rest (bad : Char) (t : Str) :
    ∀ (ps : List (Str × Str)) (s : Str), bad ∉ s →
      (∀ p ∈ ps, (∃ tl, p.1 = bad :: tl ∧ bad ∉ tl) ∧ bad ∉ p.2) →
      (∀ p ∈ ps, ¬ p.1 <+: (bad :: t) ∧ ¬ (bad :: t) <+: p.1) →
      ¬ (bad :: t) <:+: s ++ (ps.map fun p => p.1 ++ p.2).flatten := by
  intro ps
  induction ps with
  | nil =>
    intro s hbs _ _ h
    rw [List.map_nil, List.flatten_nil, List.append_nil] at h
    exact not_inf_of_mem_notMem (List.mem_cons_self bad t) hbs h
  | cons p rest ih =>
    intro s hbs hshape hinc h
    obtain ⟨⟨tl, hl, hbtl⟩, hbs1⟩ := hshape p (List.mem_cons_self p rest)
    rw [List.map_cons, List.flatten_cons] at h
    have h2 : (bad :: t) <:+: (p.1 ++ p.2) ++ (rest.map fun q => q.1 ++ q.2).flatten :=
      headBad_inf_append hbs h
    rw [hl, List.append_assoc, List.cons_append] at h2
    rcases headBad_inf_cons_append hbtl h2 with hpre | hrest
    · have hpre9 : (bad :: t) <+:
          p.1 ++ (p.2 ++ (rest.map fun q => q.1 ++ q.2).flatten) := by
        rw [hl]
        exact hpre
      rcases Nat.le_total (bad :: t).length p.1.length with hle | hle
      · have : (bad :: t) <+: p.1 :=
          List.prefix_of_prefix_length_le hpre9 (List.prefix_append _ _) hle
        exact (hinc p (List.mem_cons_self p rest)).2 this
      · have : p.1 <+: (bad :: t) :=
          List.prefix_of_prefix_length_le (List.prefix_append _ _) hpre9 hle
        exact (hinc p (List.mem_cons_self p rest)).1 this
    · exact ih p.2 hbs1
        (fun q hq => hshape q (List.mem_cons_of_mem p hq))
        (fun q hq => hinc q (List.mem_cons_of_mem p hq))
        hrest

/-- A `bad`-headed literal has no occurrence starting inside a
`bad`-free prefix followed by the literal minus its final character. -/
theorem no_occ_pre (bad : Char) (t A : Str) (hbt : bad ∉ t) (hbA : bad ∉ A) :
    ¬ (bad :: t) <:+: A ++ (bad :: t).dropLast := by
  intro h
  match t, hbt with
  | [], _ =>
    rw [show ((bad :: []: Str)).dropLast = [] from rfl, List.append_nil] at h
    exact not_inf_of_mem_notMem (List.mem_cons_self bad []) hbA h
  | t0 :: ts, hbt =>
    have hdl : ((bad :: t0 :: ts : Str)).dropLast = bad :: (t0 :: ts).dropLast := rfl
    rw [hdl] at h
    have hbdl : bad ∉ (t0 :: ts).dropLast := fun hx =>
      hbt (List.dropLast_sublist (t0 :: ts) |>.subset hx)
    have h2 : (bad :: t0 :: ts) <:+: bad :: (t0 :: ts).dropLast :=
      headBad_inf_append hbA h
    have hlen := h2.length_le
    simp only [List.length_cons] at hlen
    have := List.length_dropLast (t0 :: ts)
    simp only [List.length_cons] at this
    omega

/-- Folding the substitutions of `convert_joplin_body` over a body that
interleaves the links' literal texts with literal-free segments replaces
each literal, in place, by its target-addressed form. -/
theorem substFold_interleave (md : Bool) (bad : Char) :
    ∀ (links : List JoplinInternalLink) (ss : List Str) (s0 : Str),
      links.length = ss.length →
      bad ∉ s0 →
      (∀ s ∈ ss, bad ∉ s) →
      (∀ j ∈ links, ∃ tl, j.outertext = bad :: tl ∧ bad ∉ tl) →
      (∀ j ∈ links, bad ∉ gen_ilstr md j) →
      links.Pairwise
        (fun i j => ¬ i.outertext <+: j.outertext ∧ ¬ j.outertext <+: i.outertext) →
      substFold md (interleave s0 ((links.map (·.outertext)).zip ss)) links =
        interleave s0 ((links.map (gen_ilstr md)).zip ss) := by
  intro links
  induction links with
  | nil =>
    intro ss s0 _ _ _ _ _ _
    simp [substFold, interleave]
  | cons j rest ih =>
    intro ss s0 hlen hbs0 hbss hlit hbadf hpair
    match ss, hlen with
    | s :: ss', hlen =>
    obtain ⟨tl, hl, hbtl⟩ := hlit j (List.mem_cons_self j rest)
    have hbj : bad ∉ j.outertext → False := by
      intro hx
      exact hx (by rw [hl]; exact List.mem_cons_self bad tl)
    have hbs : bad ∉ s := hbss s (List.mem_cons_self s ss')
    have hbform : bad ∉ gen_ilstr md j := hbadf j (List.mem_cons_self j rest)
    have hne : j.outertext ≠ [] := by rw [hl]; simp
    -- the tail pairs of the interleaving
    set pairs : List (Str × Str) := (rest.map (·.outertext)).zip ss' with hpairs
    have hshape : ∀ p ∈ pairs, (∃ tl2, p.1 = bad :: tl2 ∧ bad ∉ tl2) ∧ bad ∉ p.2 := by
      intro p hp
      obtain ⟨h1, h2⟩ := List.of_mem_zip hp
      obtain ⟨j2, hj2, hj2eq⟩ := List.mem_map.mp h1
      refine ⟨?_, hbss p.2 (List.mem_cons_of_mem s h2)⟩
      obtain ⟨tl2, hl2, hb2⟩ := hlit j2 (List.mem_cons_of_mem j hj2)
      exact ⟨tl2, by rw [← hj2eq, hl2], hb2⟩
    have hincp : ∀ p ∈ pairs, ¬ p.1 <+: (bad :: tl) ∧ ¬ (bad :: tl) <+: p.1 := by
      intro p hp
      obtain ⟨h1, _⟩ := List.of_mem_zip hp
      obtain ⟨j2, hj2, hj2eq⟩ := List.mem_map.mp h1
      have hrel := (List.pairwise_cons.mp hpair).1 j2 hj2
      rw [hl] at hrel
      rw [← hj2eq]
      exact ⟨hrel.2, hrel.1⟩
    have hflat1 :
        interleave s0 (((j :: rest).map (·.outertext)).zip (s :: ss')) =
          s0 ++ (j.outertext ++ (s ++ (pairs.map fun p => p.1 ++ p.2).flatten)) := by
      simp [interleave, hpairs, List.append_assoc]
    have hstep1 :
        replaceList j.outertext (gen_ilstr md j)
            (s0 ++ (j.outertext ++ (s ++ (pairs.map fun p => p.1 ++ p.2).flatten))) =
          s0 ++ (gen_ilstr md j ++
            replaceList j.outertext (gen_ilstr md j)
              (s ++ (pairs.map fun p => p.1 ++ p.2).flatten)) :=
      replaceList_append_pat j.outertext (gen_ilstr md j) s0 _
        (by rw [hl]; exact no_occ_pre bad tl s0 hbtl hbs0)
    have hstep2 :
        replaceList j.outertext (gen_ilstr md j)
            (s ++ (pairs.map fun p => p.1 ++ p.2).flatten) =
          s ++ (pairs.map fun p => p.1 ++ p.2).flatten :=
      replaceList_eq_self_of_not_inf
        (by rw [hl]; exact no_occ_rest bad tl pairs s hbs hshape hincp)
    have hfold :
        substFold md (interleave s0 (((j :: rest).map (·.outertext)).zip (s :: ss')))
            (j :: rest) =
          substFold md
            (s0 ++ (gen_ilstr md j ++ (s ++ (pairs.map fun p => p.1 ++ p.2).flatten)))
            rest := by
      rw [hflat1]
      show substFold md
        (if j.outertext ≠ [] then
          replaceList j.outertext (gen_ilstr md j)
            (s0 ++ (j.outertext ++ (s ++ (pairs.map fun p => p.1 ++ p.2).flatten)))
        else _) rest = _
      rw [if_pos hne, hstep1, hstep2]
    rw [hfold]
    have hbody2 :
        s0 ++ (gen_ilstr md j ++ (s ++ (pairs.map fun p => p.1 ++ p.2).flatten)) =
          interleave ((s0 ++ gen_ilstr md j) ++ s) pairs := by
      simp [interleave, List.append_assoc]
    rw [hbody2]
    rw [ih ss' ((s0 ++ gen_ilstr md j) ++ s)
      (by simpa using hlen)
      (by
        intro hx
        rcases List.mem_append.mp hx with hx2 | hx2
        · rcases List.mem_append.mp hx2 with hx3 | hx3
          · exact hbs0 hx3
          · exact hbform hx3
        · exact hbs hx2)
      (fun s2 hs2 => hbss s2 (List.mem_cons_of_mem s hs2))
      (fun j2 hj2 => hlit j2 (List.mem_cons_of_mem j hj2))
      (fun j2 hj2 => hbadf j2 (List.mem_cons_of_mem j hj2))
      ((List.pairwise_cons.mp hpair).2)]
    simp [interleave, List.append_assoc]

theorem count2_append_head :
    ∀ (X Y : Str), Y.head? ≠ some '/' →
      countOccur resMarker (X ++ Y) =
        countOccur resMarker X + countOccur resMarker Y := by
  have main : ∀ (n : Nat) (X : Str), X.length ≤ n → ∀ (Y : Str),
      Y.head? ≠ some '/' →
      countOccur resMarker (X ++ Y) =
        countOccur resMarker X + countOccur resMarker Y := by
    intro n
    induction n with
    | zero =>
      intro X hX Y _
      have : X = [] := List.length_eq_zero.mp (Nat.le_zero.mp hX)
      subst this
      simp [countOccur_nil]
    | succ n ih =>
      intro X hX Y hhead
      match X with
      | [] => simp [countOccur_nil]
      | [x] =>
        have hnp1 : ¬ resMarker.isPrefixOf [x] := by
          simp [resMarker, List.isPrefixOf]
        have hnp2 : ¬ resMarker.isPrefixOf (x :: Y) := by
          simp only [resMarker, List.isPrefixOf, Bool.and_eq_true, beq_iff_eq]
          rintro ⟨rfl, h2⟩
          match Y, hhead, h2 with
          | [], _, h2 => simp [List.isPrefixOf] at h2
          | y :: ys, hhead, h2 =>
            simp only [List.isPrefixOf, Bool.and_eq_true, beq_iff_eq] at h2
            exact hhead (by simp [h2.1.symm])
        rw [List.cons_append, List.nil_append,
          countOccur_neg _ x Y (by simp [hnp2]),
          countOccur_neg _ x [] (by simp [hnp1]), countOccur_nil]
        simp
      | x :: x' :: X'' =>
        by_cases hpre : x = ':' ∧ x' = '/'
        · obtain ⟨rfl, rfl⟩ := hpre
          have hp1 : resMarker.isPrefixOf (':' :: '/' :: X'') := by
            simp [resMarker, List.isPrefixOf]
          have hp2 : resMarker.isPrefixOf (':' :: '/' :: (X'' ++ Y)) := by
            simp [resMarker, List.isPrefixOf]
          have hres : resMarker ≠ [] := by simp [resMarker]
          rw [List.cons_append, List.cons_append,
            countOccur_pos _ _ _ hres hp2, countOccur_pos _ _ _ hres hp1]
          have hdrop2 : (':' :: '/' :: (X'' ++ Y)).drop resMarker.length = X'' ++ Y := by
            simp [resMarker]
          have hdrop1 : (':' :: '/' :: X'').drop resMarker.length = X'' := by
            simp [resMarker]
          rw [hdrop2, hdrop1]
          have hlen : X''.length ≤ n := by
            simp only [List.length_cons] at hX
            omega
          rw [ih X'' hlen Y hhead]
          omega
        · have hnp1 : ¬ resMarker.isPrefixOf (x :: x' :: X'') := by
            simp only [resMarker, List.isPrefixOf, Bool.and_eq_true, beq_iff_eq]
            rintro ⟨h1, h2, -⟩
            exact hpre ⟨h1.symm, h2.symm⟩
          have hnp2 : ¬ resMarker.isPrefixOf (x :: x' :: (X'' ++ Y)) := by
            simp only [resMarker, List.isPrefixOf, Bool.and_eq_true, beq_iff_eq]
            rintro ⟨h1, h2, -⟩
            exact hpre ⟨h1.symm, h2.symm⟩
          rw [List.cons_append,
            countOccur_neg _ x _ (by simp [hnp2]),
            countOccur_neg _ x _ (by simp [hnp1])]
          have hlen : (x' :: X'').length ≤ n := by
            simp only [List.length_cons] at hX ⊢
            omega
          exact ih (x' :: X'') hlen Y hhead
  intro X Y h
  exact main X.length X (Nat.le_refl _) Y h

/-- Every generated target-addressed form ends in `)` or `>`. -/
theorem gen_ilstr_concat_shape (md : Bool) (j : JoplinInternalLink) :
    ∃ A c, gen_ilstr md j = A ++ [c] ∧ (c = ')' ∨ c = '>') := by
  cases md
  · by_cases him : j.link_type = [ 'i' , 'm' , 'a' , 'g' , 'e' ]
    · refine ⟨"<img src=\":/".toList ++ j.resource_id ++ "\" alt=\"".toList ++
        j.title ++ [ '"' ], '>', ?_, Or.inr rfl⟩
      simp [gen_ilstr, him, List.append_assoc]
    · refine ⟨"<a href=\":/".toList ++ j.resource_id ++ "\">".toList ++
        j.title ++ [ '<' , '/' , 'a' ], '>', ?_, Or.inr rfl⟩
      simp [gen_ilstr, him, List.append_assoc]
  · by_cases him : j.link_type = [ 'i' , 'm' , 'a' , 'g' , 'e' ]
    · refine ⟨'!' :: ("[".toList ++ j.title ++ "](:/".toList ++ j.resource_id),
        ')', ?_, Or.inl rfl⟩
      simp [gen_ilstr, him, List.append_assoc]
    · refine ⟨"[".toList ++ j.title ++ "](:/".toList ++ j.resource_id,
        ')', ?_, Or.inl rfl⟩
      simp [gen_ilstr, him, List.append_assoc]

theorem gen_ilstr_ne_nil (md : Bool) (j : JoplinInternalLink) :
    gen_ilstr md j ≠ [] := by
  obtain ⟨A, c, heq, -⟩ := gen_ilstr_concat_shape md j
  rw [heq]
  simp

theorem gen_ilstr_getLast_ne (md : Bool) (j : JoplinInternalLink) :
    (gen_ilstr md j).getLast? ≠ some ':' := by
  obtain ⟨A, c, heq, hc⟩ := gen_ilstr_concat_shape md j
  rw [heq, List.getLast?_concat]
  rcases hc with rfl | rfl <;> simp

/-- Each generated form holds the resource-address marker exactly once
(titles and resource ids free of `:`). -/
theorem gen_ilstr_marker (md : Bool) (j : JoplinInternalLink)
    (ht : ':' ∉ j.title) (hr : ':' ∉ j.resource_id) :
    countOccur resMarker (gen_ilstr md j) = 1 := by
  cases md
  · by_cases him : j.link_type = [ 'i' , 'm' , 'a' , 'g' , 'e' ]
    · have hform : gen_ilstr false j =
          "<img src=\"".toList ++ ':' :: '/' ::
            (j.resource_id ++ "\" alt=\"".toList ++ j.title ++ "\">".toList) := by
        simp [gen_ilstr, him, List.append_assoc]
      rw [hform]
      refine count2_single _ _ (by decide) ?_
      intro hx
      simp only [List.mem_append] at hx
      rcases hx with ((hx | hx) | hx) | hx
      · exact hr hx
      · revert hx; decide
      · exact ht hx
      · revert hx; decide
    · have hform : gen_ilstr false j =
          "<a href=\"".toList ++ ':' :: '/' ::
            (j.resource_id ++ "\">".toList ++ j.title ++ "</a>".toList) := by
        simp [gen_ilstr, him, List.append_assoc]
      rw [hform]
      refine count2_single _ _ (by decide) ?_
      intro hx
      simp only [List.mem_append] at hx
      rcases hx with ((hx | hx) | hx) | hx
      · exact hr hx
      · revert hx; decide
      · exact ht hx
      · revert hx; decide
  · by_cases him : j.link_type = [ 'i' , 'm' , 'a' , 'g' , 'e' ]
    · have hform : gen_ilstr true j =
          ('!' :: ("[".toList ++ j.title ++ "](".toList)) ++ ':' :: '/' ::
            (j.resource_id ++ ")".toList) := by
        simp [gen_ilstr, him, List.append_assoc]
      rw [hform]
      refine count2_single _ _ ?_ ?_
      · intro hx
        simp only [List.cons_append, List.mem_cons, List.mem_append] at hx
        rcases hx with hx | (hx | hx) | hx
        · exact absurd hx.symm (by decide)
        · revert hx; decide
        · exact ht hx
        · revert hx; decide
      · intro hx
        simp only [List.mem_append] at hx
        rcases hx with hx | hx
        · exact hr hx
        · revert hx; decide
    · have hform : gen_ilstr true j =
          ("[".toList ++ j.title ++ "](".toList) ++ ':' :: '/' ::
            (j.resource_id ++ ")".toList) := by
        simp [gen_ilstr, him, List.append_assoc]
      rw [hform]
      refine count2_single _ _ ?_ ?_
      · intro hx
        simp only [List.mem_append] at hx
        rcases hx with (hx | hx) | hx
        · revert hx; decide
        · exact ht hx
        · revert hx; decide
      · intro hx
        simp only [List.mem_append] at hx
        rcases hx with hx | hx
        · exact hr hx
        · revert hx; decide

theorem entry_md_count (j : JoplinInternalLink)
    (ht : ':' ∉ j.title) (hr : ':' ∉ j.resource_id) :
    countOccur resMarker ("- ".toList ++ gen_ilstr true j) = 1 := by
  rw [count2_append _ _ (by decide), gen_ilstr_marker true j ht hr,
    count2_zero (by decide)]

theorem entry_md_getLast_ne (j : JoplinInternalLink) :
    ("- ".toList ++ gen_ilstr true j).getLast? ≠ some ':' := by
  rw [List.getLast?_append_of_ne_nil _ (gen_ilstr_ne_nil true j)]
  exact gen_ilstr_getLast_ne true j

theorem entry_html_count (j : JoplinInternalLink)
    (ht : ':' ∉ j.title) (hr : ':' ∉ j.resource_id) :
    countOccur resMarker
      ("<li>".toList ++ gen_ilstr false j ++ "</li>".toList) = 1 := by
  rw [List.append_assoc, count2_append _ _ (by decide),
    count2_append _ _ (gen_ilstr_getLast_ne false j),
    gen_ilstr_marker false j ht hr, count2_zero (by decide),
    count2_zero (by decide)]

theorem entry_html_getLast_ne (j : JoplinInternalLink) :
    ("<li>".toList ++ gen_ilstr false j ++ "</li>".toList).getLast? ≠ some ':' := by
  rw [List.append_assoc,
    List.getLast?_append_of_ne_nil _ (by
      intro h
      have := congrArg List.length h
      simp at this),
    List.getLast?_append_of_ne_nil _ (by simp : ("</li>".toList : Str) ≠ [])]
  decide

/-- Marker count of the markdown trailing list. -/
theorem count_intercalate_md (jils : List JoplinInternalLink)
    (h : ∀ j ∈ jils, ':' ∉ j.title ∧ ':' ∉ j.resource_id) :
    countOccur resMarker
        (List.intercalate "\n".toList
          (jils.map fun jil => "- ".toList ++ gen_ilstr true jil)) =
      jils.length := by
  induction jils with
  | nil => simp [List.intercalate, countOccur_nil]
  | cons j rest ih =>
    have hj := h j (List.mem_cons_self j rest)
    have hrest := fun j3 h3 => h j3 (List.mem_cons_of_mem j h3)
    match rest, ih, hrest with
    | [], _, _ =>
      simp only [List.map_cons, List.map_nil, List.intercalate, List.intersperse,
        List.flatten_cons, List.flatten_nil, List.append_nil, List.length_cons,
        List.length_nil]
      rw [entry_md_count j hj.1 hj.2]
    | j2 :: rest2, ih, hrest =>
      rw [List.map_cons, List.map_cons, intercalate_cons₂]
      rw [List.append_assoc, count2_append _ _ (entry_md_getLast_ne j),
        count2_append _ _ (by decide : ("\n".toList : Str).getLast? ≠ some ':')]
      rw [entry_md_count j hj.1 hj.2, count2_zero (by decide)]
      simp only [List.map_cons] at ih
      rw [ih hrest]
      simp only [List.length_cons]
      omega

/-- Marker count of the HTML trailing list (with a trailing string whose
head is not a slash). -/
theorem count_flatten_html (T : Str) :
    ∀ (jils : List JoplinInternalLink),
      (∀ j ∈ jils, ':' ∉ j.title ∧ ':' ∉ j.resource_id) →
      countOccur resMarker
          ((jils.map fun jil =>
            "<li>".toList ++ gen_ilstr false jil ++ "</li>".toList).flatten ++ T) =
        jils.length + countOccur resMarker T := by
  intro jils
  induction jils with
  | nil => simp
  | cons j rest ih =>
    intro h
    have hj := h j (List.mem_cons_self j rest)
    rw [List.map_cons, List.flatten_cons, List.append_assoc,
      count2_append _ _ (entry_html_getLast_ne j),
      entry_html_count j hj.1 hj.2,
      ih (fun j3 h3 => h j3 (List.mem_cons_of_mem j h3))]
    simp only [List.length_cons]
    omega

/-- Marker count of the whole trailing block. -/
theorem gen_end_marker (md : Bool) (jils : List JoplinInternalLink)
    (h : ∀ j ∈ jils, ':' ∉ j.title ∧ ':' ∉ j.resource_id) :
    countOccur resMarker (gen_end_ilstr md jils) = jils.length := by
  cases md
  · show countOccur resMarker
      ("<br><br><h1>附件链接</h1><ul>".toList ++
        (jils.map fun jil =>
          "<li>".toList ++ gen_ilstr false jil ++ "</li>".toList).flatten ++
        "</ul>".toList) = jils.length
    rw [List.append_assoc, count2_append _ _ (by decide),
      count2_zero (by decide),
      count_flatten_html "</ul>".toList jils h,
      count2_zero (by decide)]
    omega
  · show countOccur resMarker
      ("\n\n# 附件链接\n\n".toList ++
        List.intercalate "\n".toList
          (jils.map fun jil => "- ".toList ++ gen_ilstr true jil)) = jils.length
    rw [count2_append _ _ (by decide), count2_zero (by decide),
      count_intercalate_md jils h]
    omega

theorem mem_intercalate_char {x : Char} (sep : Str) :
    ∀ (l : List Str), x ∈ List.intercalate sep l → x ∈ sep ∨ ∃ e ∈ l, x ∈ e := by
  intro l
  induction l with
  | nil => intro h; simp [List.intercalate] at h
  | cons e rest ih =>
    match rest, ih with
    | [], _ =>
      intro h
      rw [show List.intercalate sep [e] = e by simp [List.intercalate]] at h
      exact Or.inr ⟨e, List.mem_cons_self e [], h⟩
    | e2 :: rest2, ih =>
      intro h
      rw [intercalate_cons₂] at h
      rcases List.mem_append.mp h with h1 | h1
      · rcases List.mem_append.mp h1 with h2 | h2
        · exact Or.inr ⟨e, List.mem_cons_self e _, h2⟩
        · exact Or.inl h2
      · rcases ih h1 with h2 | ⟨e3, he3, hx3⟩
        · exact Or.inl h2
        · exact Or.inr ⟨e3, List.mem_cons_of_mem e he3, hx3⟩

/-- The fixed characters of the trailing block (heading, list syntax,
separators) in both markup variants. -/
def trailingFixedChars : Str :=
  "\n# 附件链接- <br><h1></h1><ul><li></li></ul>".toList

/-- A character absent from every generated form and from the fixed
trailing syntax does not occur in the trailing block. -/
theorem notMem_gen_end (bad : Char) (md : Bool) (jils : List JoplinInternalLink)
    (hf : ∀ j ∈ jils, bad ∉ gen_ilstr md j)
    (hb : bad ∉ trailingFixedChars) :
    bad ∉ gen_end_ilstr md jils := by
  intro hx
  cases md
  · have hx2 : bad ∈ "<br><br><h1>附件链接</h1><ul>".toList ++
        ((jils.map fun jil =>
          "<li>".toList ++ gen_ilstr false jil ++ "</li>".toList).flatten ++
          "</ul>".toList) := by
      simpa [gen_end_ilstr, List.append_assoc] using hx
    rcases List.mem_append.mp hx2 with h1 | h1
    · exact hb ((by decide :
        ∀ c ∈ "<br><br><h1>附件链接</h1><ul>".toList,
          c ∈ trailingFixedChars) bad h1)
    · rcases List.mem_append.mp h1 with h2 | h2
      · obtain ⟨l2, hl2, hxl2⟩ := List.mem_flatten.mp h2
        obtain ⟨j2, hj2, rfl⟩ := List.mem_map.mp hl2
        rcases List.mem_append.mp hxl2 with h3 | h3
        · rcases List.mem_append.mp h3 with h4 | h4
          · exact hb ((by decide :
              ∀ c ∈ "<li>".toList, c ∈ trailingFixedChars) bad h4)
          · exact hf j2 hj2 h4
        · exact hb ((by decide :
            ∀ c ∈ "</li>".toList, c ∈ trailingFixedChars) bad h3)
      · exact hb ((by decide :
          ∀ c ∈ "</ul>".toList, c ∈ trailingFixedChars) bad h2)
  · have hx2 : bad ∈ "\n\n# 附件链接\n\n".toList ++
        List.intercalate "\n".toList
          (jils.map fun jil => "- ".toList ++ gen_ilstr true jil) := by
      simpa [gen_end_ilstr] using hx
    rcases List.mem_append.mp hx2 with h1 | h1
    · exact hb ((by decide :
        ∀ c ∈ "\n\n# 附件链接\n\n".toList, c ∈ trailingFixedChars) bad h1)
    · rcases mem_intercalate_char _ _ h1 with h2 | ⟨e, he, hxe⟩
      · exact hb ((by decide :
          ∀ c ∈ "\n".toList, c ∈ trailingFixedChars) bad h2)
      · obtain ⟨j2, hj2, rfl⟩ := List.mem_map.mp he
        rcases List.mem_append.mp hxe with h3 | h3
        · exact hb ((by decide :
            ∀ c ∈ "- ".toList, c ∈ trailingFixedChars) bad h3)
        · exact hf j2 hj2 h3

/-- Membership in an interleaving comes from the initial segment or one
of the pairs. -/
theorem mem_interleave {x : Char} {s0 : Str} {ps : List (Str × Str)}
    (h : x ∈ interleave s0 ps) :
    x ∈ s0 ∨ ∃ p ∈ ps, x ∈ p.1 ∨ x ∈ p.2 := by
  rcases List.mem_append.mp h with h1 | h1
  · exact Or.inl h1
  · obtain ⟨l2, hl2, hxl2⟩ := List.mem_flatten.mp h1
    obtain ⟨p, hp, rfl⟩ := List.mem_map.mp hl2
    exact Or.inr ⟨p, hp, List.mem_append.mp hxl2⟩

/-- Marker count of a body interleaving the generated forms with
colon-free segments. -/
theorem count_interleave_forms (md : Bool) :
    ∀ (links : List JoplinInternalLink) (ss : List Str) (s0 : Str),
      links.length = ss.length → ':' ∉ s0 → (∀ s ∈ ss, ':' ∉ s) →
      (∀ j ∈ links, ':' ∉ j.title ∧ ':' ∉ j.resource_id) →
      countOccur resMarker (interleave s0 ((links.map (gen_ilstr md)).zip ss)) =
        links.length := by
  intro links
  induction links with
  | nil =>
    intro ss s0 _ hc0 _ _
    simp [interleave, count2_zero hc0]
  | cons j rest ih =>
    intro ss s0 hlen hc0 hcs hct
    match ss, hlen with
    | s :: ss', hlen =>
    have hj := hct j (List.mem_cons_self j rest)
    have heq : interleave s0 (((j :: rest).map (gen_ilstr md)).zip (s :: ss')) =
        s0 ++ (gen_ilstr md j ++ (s ++
          interleave [] ((rest.map (gen_ilstr md)).zip ss'))) := by
      simp [interleave, List.append_assoc]
    rw [heq]
    rw [count2_append _ _ (getLast?_ne_of_notMem hc0), count2_zero hc0,
      count2_append _ _ (gen_ilstr_getLast_ne md j),
      gen_ilstr_marker md j hj.1 hj.2,
      count2_append _ _ (getLast?_ne_of_notMem (hcs s (List.mem_cons_self s ss'))),
      count2_zero (hcs s (List.mem_cons_self s ss')),
      ih ss' [] (by simpa using hlen) (by simp)
        (fun s2 hs2 => hcs s2 (List.mem_cons_of_mem s hs2))
        (fun j2 hj2 => hct j2 (List.mem_cons_of_mem j hj2))]
    simp only [List.length_cons]
    omega

theorem gen_end_head_ne (md : Bool) (jils : List JoplinInternalLink) :
    (gen_end_ilstr md jils).head? ≠ some '/' := by
  cases md
  · show ("<br><br><h1>附件链接</h1><ul>".toList ++ _).head? ≠ some '/'
    rw [List.head?_append_of_ne_nil _ (by decide)]
    decide
  · show ("\n\n# 附件链接\n\n".toList ++ _).head? ≠ some '/'
    rw [List.head?_append_of_ne_nil _ (by decide)]
    decide

/-- C5 (amended).  For a body interleaving the N literal texts of the
given links with literal-free segments, the converted body substitutes
every literal exactly in place by its target-addressed form (so the
original literal forms have zero occurrences), and the count of
target-addressed forms — measured by the resource-address marker `:/`,
which each form holds exactly once — is N for the inline substitutions
plus one further form per attachment-typed link contributed by the
trailing block (the claim's "exactly N" holds when no link is
attachment-typed; attachment links each add one trailing entry). -/
theorem convert_body_substitution_amended
    (gt : Str → Str) (is_markdown : Bool) (bad : Char)
    (links : List JoplinInternalLink) (s0 : Str) (ss : List Str)
    (hlen : links.length = ss.length)
    (hgt : ∀ x, gt x = x)
    (hbad0 : bad ∉ s0) (hbads : ∀ s ∈ ss, bad ∉ s)
    (hlit : ∀ j ∈ links, ∃ tl, j.outertext = bad :: tl ∧ bad ∉ tl)
    (hbadf : ∀ j ∈ links, bad ∉ gen_ilstr is_markdown j)
    (hbadt : bad ∉ trailingFixedChars)
    (hinc : links.Pairwise
      (fun i j => ¬ i.outertext <+: j.outertext ∧ ¬ j.outertext <+: i.outertext))
    (hc0 : ':' ∉ s0) (hcs : ∀ s ∈ ss, ':' ∉ s)
    (hct : ∀ j ∈ links, ':' ∉ j.title ∧ ':' ∉ j.resource_id) :
    convert_joplin_body gt (interleave s0 ((links.map (·.outertext)).zip ss))
        is_markdown links =
      interleave s0 ((links.map (gen_ilstr is_markdown)).zip ss) ++
        (if links.filter (fun j => j.link_type = attachType) ≠ [] then
          gen_end_ilstr is_markdown
            (links.filter fun j => j.link_type = attachType)
        else []) ∧
    (∀ j ∈ links, ¬ j.outertext <:+:
      convert_joplin_body gt (interleave s0 ((links.map (·.outertext)).zip ss))
        is_markdown links) ∧
    countOccur resMarker
        (convert_joplin_body gt (interleave s0 ((links.map (·.outertext)).zip ss))
          is_markdown links) =
      links.length + (links.filter fun j => j.link_type = attachType).length := by
  have hsub : substFold is_markdown
      (interleave s0 ((links.map (·.outertext)).zip ss)) links =
      interleave s0 ((links.map (gen_ilstr is_markdown)).zip ss) :=
    substFold_interleave is_markdown bad links ss s0 hlen hbad0 hbads hlit hbadf hinc
  have hpre : (if is_markdown then
        gt (substFold is_markdown
          (interleave s0 ((links.map (·.outertext)).zip ss)) links)
      else substFold is_markdown
        (interleave s0 ((links.map (·.outertext)).zip ss)) links) =
      interleave s0 ((links.map (gen_ilstr is_markdown)).zip ss) := by
    cases is_markdown
    · simpa using hsub
    · simp only [if_pos rfl, hgt]
      exact hsub
  have hmain : convert_joplin_body gt
      (interleave s0 ((links.map (·.outertext)).zip ss)) is_markdown links =
      interleave s0 ((links.map (gen_ilstr is_markdown)).zip ss) ++
        (if links.filter (fun j => j.link_type = attachType) ≠ [] then
          gen_end_ilstr is_markdown
            (links.filter fun j => j.link_type = attachType)
        else []) := by
    rw [convert_joplin_body_decomp]
    simp only []
    by_cases hatt : links.filter (fun j => j.link_type = attachType) ≠ []
    · rw [if_pos hatt, if_pos hatt, hpre]
    · rw [if_neg hatt, if_neg hatt, hpre]
      simp
  refine ⟨hmain, ?_, ?_⟩
  · intro j hj
    obtain ⟨tl, hl, _⟩ := hlit j hj
    rw [hmain, hl]
    have hbadpre : bad ∉
        interleave s0 ((links.map (gen_ilstr is_markdown)).zip ss) := by
      intro hx
      rcases mem_interleave hx with hx1 | ⟨p, hp, hx2 | hx2⟩
      · exact hbad0 hx1
      · obtain ⟨h1, _⟩ := List.of_mem_zip hp
        obtain ⟨j2, hj2, hj2eq⟩ := List.mem_map.mp h1
        rw [← hj2eq] at hx2
        exact hbadf j2 hj2 hx2
      · obtain ⟨_, h2⟩ := List.of_mem_zip hp
        exact hbads p.2 h2 hx2
    have hbadend : bad ∉
        (if links.filter (fun j => j.link_type = attachType) ≠ [] then
          gen_end_ilstr is_markdown
            (links.filter fun j => j.link_type = attachType)
        else []) := by
      by_cases hatt : links.filter (fun j => j.link_type = attachType) ≠ []
      · rw [if_pos hatt]
        exact notMem_gen_end bad is_markdown _
          (fun j2 hj2 => hbadf j2 (List.mem_of_mem_filter hj2)) hbadt
      · rw [if_neg hatt]
        simp
    exact not_inf_of_mem_notMem (List.mem_cons_self bad tl)
      (fun hx => (List.mem_append.mp hx).elim hbadpre hbadend)
  · rw [hmain]
    by_cases hatt : links.filter (fun j => j.link_type = attachType) ≠ []
    · rw [if_pos hatt,
        count2_append_head _ _ (gen_end_head_ne is_markdown _),
        count_interleave_forms is_markdown links ss s0 hlen hc0 hcs hct,
        gen_end_marker is_markdown _
          (fun j2 hj2 => hct j2 (List.mem_of_mem_filter hj2))]
    · rw [if_neg hatt]
      simp only [List.append_nil]
      rw [count_interleave_forms is_markdown links ss s0 hlen hc0 hcs hct]
      have : links.filter (fun j => j.link_type = attachType) = [] := by
        by_contra hcon
        exact hatt hcon
      rw [this]
      simp

/-- The concrete attachment link used to refute C5 as stated. -/
def c5jil : JoplinInternalLink :=
  { note_id := "m".toList
    resource_id := "r2".toList
    title := "u".toList
    link_type := "open_attachment".toList
    outertext := "LK".toList }

/-- C5 (counterexample to the claim as stated): a body with N = 1
literal inline reference whose resolved link is attachment-typed yields
two target-addressed forms in the converted body (the inline
substitution plus the trailing-block entry), not exactly one. -/
theorem convert_body_form_count_counterexample :
    countOccur resMarker (convert_joplin_body id "aLKb".toList false [c5jil]) = 2 ∧
      (2 : Nat) ≠ 1 := by
  constructor
  · simp [convert_joplin_body, convertStep, c5jil, attachType, replaceList,
      gen_ilstr, gen_end_ilstr, countOccur, resMarker]
  · decide

/-- The concrete link used to witness the amended C5. -/
def c5w : JoplinInternalLink :=
  { note_id := "m".toList
    resource_id := "r2".toList
    title := "u".toList
    link_type := "open_attachment".toList
    outertext := "wLK".toList }

/-- Witness for the amended C5 at a concrete input. -/
theorem convert_body_substitution_amended_witness :
    convert_joplin_body id
        (interleave "a".toList (([c5w].map (·.outertext)).zip ["b".toList]))
        false [c5w] =
      interleave "a".toList (([c5w].map (gen_ilstr false)).zip ["b".toList]) ++
        (if [c5w].filter (fun j => j.link_type = attachType) ≠ [] then
          gen_end_ilstr false ([c5w].filter fun j => j.link_type = attachType)
        else []) :=
  (convert_body_substitution_amended id false 'w' [c5w] "a".toList ["b".toList]
    rfl (fun _ => rfl) (by decide)
    (by intro s hs; simp at hs; subst hs; decide)
    (by
      intro j hj
      simp only [List.mem_singleton] at hj
      subst hj
      exact ⟨[ 'L' , 'K' ], rfl, by decide⟩)
    (by
      intro j hj
      simp only [List.mem_singleton] at hj
      subst hj
      decide)
    (by decide)
    (by simp)
    (by decide)
    (by intro s hs; simp at hs; subst hs; decide)
    (by
      intro j hj
      simp only [List.mem_singleton] at hj
      subst hj
      exact ⟨by decide, by decide⟩)).1

/-! ### `w2j/adapter.py` and the source model of `w2j/wiz_mac.py`

Association lists keyed by strings model the Python dicts (and the
sqlite tables the source keeps in lockstep with them through the same
mutation methods). -/

def alookup {α : Type} (k : Str) : List (Str × α) → Option α
  | [] => none
  | (k2, v) :: r => if k2 = k then some v else alookup k r

def aupsert {α : Type} (k : Str) (v : α) : List (Str × α) → List (Str × α)
  | [] => [(k, v)]
  | (k2, v2) :: r => if k2 = k then (k2, v) :: r else (k2, v2) :: aupsert k v r

/-- Joplin tag (`w2j/joplin.py`, modelled from the spec's cache schema:
tag id, title, timestamps). -/
structure JoplinTag where
  id : Str
  title : Str
  created_time : Int
  updated_time : Int
deriving DecidableEq, Repr

/-- Joplin resource (spec cache schema: resource id, title, filename,
created timestamp, resource kind). -/
structure JoplinResource where
  id : Str
  title : Str
  filename : Str
  created_time : Int
  resource_type : Int
deriving DecidableEq, Repr

/-- Folder view derived from a `Location2Folder` entry by
`load_folders` (the target id may still be unset). -/
structure JoplinFolder where
  id : Option Str
  title : Str
  parent_id : Option Str
deriving DecidableEq, Repr

/-- A folder as returned by the Joplin API after creation (assigned
id). -/
structure CreatedFolder where
  id : Str
  title : Str
  parent_id : Option Str
deriving DecidableEq, Repr

/-- Joplin note with its resolved tag and internal-link sets. -/
structure JoplinNote where
  id : Str
  title : Str
  body : Str
  markup_language : Bool
  parent_id : Option Str
  url : Str
  location : Str
  created_time : Int
  updated_time : Int
  tags : List (Str × JoplinTag)
  internal_links : List (Str × JoplinInternalLink)
deriving DecidableEq, Repr

/-- A row of the `note_tag` table. -/
structure NoteTagRow where
  note_id : Str
  tag_id : Str
  title : Str
  created_time : Int
deriving DecidableEq, Repr

/-- Modelled from the spec: the Target Service state behind the
`JoplinDataAPI` client (`w2j/joplin.py` is not among the provided
sources).  Created entities and an assigned-id counter. -/
structure JoplinServer where
  folders : List CreatedFolder
  tags : List (Str × JoplinTag)
  resources : List JoplinResource
  notes : List JoplinNote
  next : Nat
deriving DecidableEq, Repr

/-- One creation call to the Target Service. -/
inductive ApiCall where
  | postFolder (title : Str) (parent_id : Option Str)
  | postTag (id : Str) (title : Str)
  | createResource (title : Str) (filename : Str)
  | postNote (id : Str)
deriving DecidableEq, Repr

/-- Modelled from the spec: target-assigned entity ids. -/
def freshId (n : Nat) : Str := 'f' :: Nat.toDigits 10 n

/-- Modelled from the spec: `create-folder(title, optional parent ID) →
folder with assigned ID`. -/
def jda_post_folder (t : JoplinServer) (title : Str) (parent_id : Option Str) :
    JoplinServer × CreatedFolder :=
  let f : CreatedFolder := ⟨freshId t.next, title, parent_id⟩
  ({ t with folders := t.folders ++ [f], next := t.next + 1 }, f)

/-- Modelled from the spec: `create-tag(requested ID, title,
timestamps) → tag`, failing with a uniqueness-violation condition when
the requested ID is already taken (`none` stands for the ValueError the
client raises). -/
def jda_post_tag (t : JoplinServer) (id title : Str) (ct ut : Int) :
    JoplinServer × Option JoplinTag :=
  if (alookup id t.tags).isSome then (t, none)
  else
    let tg : JoplinTag := ⟨id, title, ct, ut⟩
    ({ t with tags := t.tags ++ [(id, tg)] }, some tg)

/-- Modelled from the spec: `fetch-tag(ID)`. -/
def jda_get_tag (t : JoplinServer) (id : Str) : Option JoplinTag :=
  alookup id t.tags

/-- Modelled from the spec: `create-resource(content, title, filename,
content-type) → resource with assigned ID`. -/
def jda_create_resource (t : JoplinServer) (title filename : Str) :
    JoplinServer × JoplinResource :=
  let r : JoplinResource := ⟨freshId t.next, title, filename, 0, 0⟩
  ({ t with resources := t.resources ++ [r], next := t.next + 1 }, r)

/-- Modelled from the spec: `list-resources()`, used for filename-based
dedup lookup. -/
def jda_get_resources (t : JoplinServer) : List JoplinResource :=
  t.resources

/-- Modelled from the spec: `create-note(requested ID, title, body,
markup flag, parent folder ID, source URL, timestamps) → note`. -/
def jda_post_note (t : JoplinServer) (id title body : Str) (markup : Bool)
    (parent_id : Option Str) (url : Str) (ct ut : Int) :
    JoplinServer × JoplinNote :=
  let n : JoplinNote :=
    { id := id, title := title, body := body, markup_language := markup
      parent_id := parent_id, url := url, location := []
      created_time := ct, updated_time := ut, tags := [], internal_links := [] }
  ({ t with notes := t.notes ++ [n] }, n)

/-- The `ConvertUtil` cache: one keyed store per table. -/
structure ConvertUtil where
  l2f_cache : List (Str × Location2Folder)
  tags : List (Str × JoplinTag)
  notes : List (Str × JoplinNote)
  resources : List (Str × JoplinResource)
  internal_links : List (Str × JoplinInternalLink)
  note_tag : List NoteTagRow
deriving DecidableEq, Repr

/-- `ConvertUtil.add_tag`: insert-if-absent. -/
def ConvertUtil.add_tag (cu : ConvertUtil) (tag : JoplinTag) : ConvertUtil :=
  if (alookup tag.id cu.tags).isSome then cu
  else { cu with tags := cu.tags ++ [(tag.id, tag)] }

/-- `ConvertUtil.add_resource`: insert-if-absent. -/
def ConvertUtil.add_resource (cu : ConvertUtil) (jr : JoplinResource) : ConvertUtil :=
  if (alookup jr.id cu.resources).isSome then cu
  else { cu with resources := cu.resources ++ [(jr.id, jr)] }

/-- `ConvertUtil.add_internal_lnk`: insert-if-absent. -/
def ConvertUtil.add_internal_lnk (cu : ConvertUtil) (jil : JoplinInternalLink) :
    ConvertUtil :=
  if (alookup jil.id cu.internal_links).isSome then cu
  else { cu with internal_links := cu.internal_links ++ [(jil.id, jil)] }

/-- `ConvertUtil.add_note_tag`.  The source runs a `COUNT(*)` existence
query and tests the fetched row object itself (`if note_tag_item:`)
rather than the count inside it; `fetchone()` on an aggregate query
always returns a row, so the test is always true and the insert is never
reached. -/
def ConvertUtil.add_note_tag (cu : ConvertUtil) (note : JoplinNote)
    (tag : JoplinTag) : ConvertUtil :=
  let note_tag_item : Option Nat :=
    some ((cu.note_tag.filter fun r =>
      r.note_id = note.id ∧ r.tag_id = tag.id).length)
  if note_tag_item.isSome then cu
  else { cu with note_tag :=
    cu.note_tag ++ [⟨note.id, tag.id, tag.title, tag.created_time⟩] }

/-- `ConvertUtil.add_note`: insert-if-absent, then cascade over the
note's tags (`add_note_tag`) and internal links (`add_internal_lnk`). -/
def ConvertUtil.add_note (cu : ConvertUtil) (note : JoplinNote) : ConvertUtil :=
  if (alookup note.id cu.notes).isSome then cu
  else
    let cu2 := { cu with notes := cu.notes ++ [(note.id, note)] }
    let cu3 := note.tags.foldl (fun c p => c.add_note_tag note p.2) cu2
    note.internal_links.foldl (fun c p => c.add_internal_lnk p.2) cu3

/-- `ConvertUtil.update_l2f`: set the entry's target id (and the parent
target id when one is supplied) unconditionally; `self.l2f_cache[location]`
raises `KeyError` when the location is absent (`none`). -/
def ConvertUtil.update_l2f (cu : ConvertUtil) (location : Str) (id : Str)
    (parent_id : Option Str) : Option ConvertUtil :=
  match alookup location cu.l2f_cache with
  | none => none
  | some l2f =>
    let l2f2 := { l2f with id := some id }
    let l2f3 := match parent_id with
      | some p => { l2f2 with parent_id := some p }
      | none => l2f2
    some { cu with l2f_cache := aupsert location l2f3 cu.l2f_cache }

/-- `ConvertUtil.get_waiting_for_created_l2f`: the entries without a
target id, sorted by ascending level (Python's stable sort). -/
def ConvertUtil.get_waiting_for_created_l2f (cu : ConvertUtil) :
    List Location2Folder :=
  ((cu.l2f_cache.map Prod.snd).filter fun v => v.id = none).mergeSort
    (fun a b => a.level ≤ b.level)

/-- `ConvertUtil.get_note`. -/
def ConvertUtil.get_note (cu : ConvertUtil) (note_id : Str) : Option JoplinNote :=
  alookup note_id cu.notes

/-- `get_folder(location=...)`: the source resolves the location in
`l2f_cache` and reads the folder from the `folders` dict that
`load_folders` rebuilds from the same entries, so the observable folder
carries the entry's target id; the derived view is modelled directly. -/
def ConvertUtil.get_folder_by_location (cu : ConvertUtil) (location : Str) :
    Option JoplinFolder :=
  match alookup location cu.l2f_cache with
  | none => none
  | some l2f => some ⟨l2f.id, l2f.title, l2f.parent_id⟩

/-- `ConvertUtil.get_tags`: reads the `note_tag` rows of the note; the
source then takes `tag_id = item[1]`, which is the *title* column of the
selected pair, and indexes `self.tags` with it (`KeyError`, i.e. `none`,
when absent). -/
def ConvertUtil.get_tags (cu : ConvertUtil) (guid : Str) :
    Option (List (Str × JoplinTag)) :=
  let items := cu.note_tag.filter fun r => r.note_id = guid
  items.foldlM (fun m r =>
    match alookup r.title cu.tags with
    | some tg => some (aupsert r.title tg m)
    | none => none) []

/-! ### The source model (`w2j/wiz_mac.py`) -/

/-- WizNote tag. -/
structure WizTag where
  guid : Str
  name : Str
  modified : Int
deriving DecidableEq, Repr

/-- WizNote inline internal link found in a body. -/
structure WizInternalLink where
  outerhtml : Str
  guid : Str
  title : Str
  link_type : Str
deriving DecidableEq, Repr

/-- WizNote attachment; `file` is its on-disk path and `file_exists`
records whether that path exists. -/
structure WizAttachment where
  guid : Str
  doc_guid : Str
  name : Str
  modified : Int
  file_name : Str
  file : Str
  file_exists : Bool
deriving DecidableEq, Repr

/-- WizNote in-body image; `file` is its on-disk path (empty when the
source had no usable src) and `file_exists` records whether it exists. -/
structure WizImage where
  outerhtml : Str
  src : Str
  file : Str
  file_exists : Bool
deriving DecidableEq, Repr

/-- WizNote document, fully resolved before synchronization. -/
structure WizDocument where
  guid : Str
  title : Str
  location : Str
  url : Str
  created : Int
  modified : Int
  is_markdown : Bool
  body : Str
  tags : List WizTag
  attachments : List WizAttachment
  images : List WizImage
  internal_links : List WizInternalLink
deriving DecidableEq, Repr

/-- The resolved source store handed to the adapter. -/
structure WizStorage where
  documents : List WizDocument
  tags : List WizTag
deriving DecidableEq, Repr

/-! ### The `Adapter` synchronization methods -/

inductive SyncError where
  | parentMissing (location : Str)
  | parentNoId (location : Str)
  | keyError
  | folderMissing (location : Str)
deriving DecidableEq, Repr

/-- One folder-creation submission, recording the entry processed and
the parent target id passed to the Target Service at submission time. -/
structure FolderEvent where
  location : Str
  title : Str
  level : Nat
  parent_location : Option Str
  parent_id_used : Option Str
deriving DecidableEq, Repr

/-- The body of the `sync_folders` loop for a single waiting entry:
root entries are created without a parent; for child entries the parent
entry is looked up and the run aborts (`ValueError`) when it is absent
or still has no target id; only then is the folder creation submitted
with the parent's id, and the cache updated. -/
def Adapter.sync_folder_step (cu : ConvertUtil) (t : JoplinServer)
    (l2f : Location2Folder) :
    Except SyncError (ConvertUtil × JoplinServer × FolderEvent) :=
  match l2f.parent_location with
  | none =>
    let r := jda_post_folder t l2f.title none
    match cu.update_l2f l2f.location r.2.id none with
    | none => .error .keyError
    | some cu2 =>
      .ok (cu2, r.1, ⟨l2f.location, l2f.title, l2f.level, none, none⟩)
  | some pl =>
    match alookup pl cu.l2f_cache with
    | none => .error (.parentMissing pl)
    | some parent_l2f =>
      match parent_l2f.id with
      | none => .error (.parentNoId pl)
      | some pid =>
        let r := jda_post_folder t l2f.title (some pid)
        match cu.update_l2f l2f.location r.2.id r.2.parent_id with
        | none => .error .keyError
        | some cu2 =>
          .ok (cu2, r.1, ⟨l2f.location, l2f.title, l2f.level, some pl, some pid⟩)

/-- The `sync_folders` loop over a list of waiting entries, returning
the submissions made and the error that aborted the run, if any. -/
def Adapter.sync_folders_aux (cu : ConvertUtil) (t : JoplinServer) :
    List Location2Folder →
      ConvertUtil × JoplinServer × List FolderEvent × Option SyncError
  | [] => (cu, t, [], none)
  | l2f :: rest =>
    match Adapter.sync_folder_step cu t l2f with
    | .error e => (cu, t, [], some e)
    | .ok (cu2, t2, ev) =>
      let r := Adapter.sync_folders_aux cu2 t2 rest
      (r.1, r.2.1, ev :: r.2.2.1, r.2.2.2)

/-- `Adapter.sync_folders`: process the waiting entries in ascending
level order.  The concluding `load_folders()` refreshes the derived
folders view, which is modelled as derived. -/
def Adapter.sync_folders (cu : ConvertUtil) (t : JoplinServer) :
    ConvertUtil × JoplinServer × List FolderEvent × Option SyncError :=
  Adapter.sync_folders_aux cu t cu.get_waiting_for_created_l2f

/-- One iteration of the `sync_tags` loop: post the tag; a uniqueness
violation from the service is reconciled by fetching the existing tag
and recording it. -/
def Adapter.sync_tag_step (acc : ConvertUtil × JoplinServer × List ApiCall)
    (wt : WizTag) :
    Except SyncError (ConvertUtil × JoplinServer × List ApiCall) :=
  let tag_id := tojoplinid wt.guid
  let r := jda_post_tag acc.2.1 tag_id wt.name wt.modified wt.modified
  match r.2 with
  | some jt =>
    Except.ok (acc.1.add_tag jt, r.1,
      acc.2.2 ++ [ApiCall.postTag tag_id wt.name])
  | none =>
    match jda_get_tag r.1 tag_id with
    | some jt =>
      Except.ok (acc.1.add_tag jt, r.1,
        acc.2.2 ++ [ApiCall.postTag tag_id wt.name])
    | none => Except.error .keyError

/-- `Adapter.sync_tags`: create every source tag whose converted id is
not yet cached. -/
def Adapter.sync_tags (cu : ConvertUtil) (t : JoplinServer)
    (ws_tags : List WizTag) :
    Except SyncError (ConvertUtil × JoplinServer × List ApiCall) :=
  let waiting := ws_tags.filter fun wt =>
    ¬ (alookup (tojoplinid wt.guid) cu.tags).isSome
  waiting.foldlM Adapter.sync_tag_step
    ((cu, t, []) : ConvertUtil × JoplinServer × List ApiCall)

/-- `Adapter._get_resource_by_filename`: first resource whose title
equals the filename, from `list-resources`. -/
def Adapter.get_resource_by_filename (t : JoplinServer) (filename : Str) :
    Option JoplinResource :=
  (jda_get_resources t).find? fun r => r.title = filename

/-- `Adapter._upload_wiz_attachment`.  The body begins
`if not os.path.exists(wiz_attachment.file_path)`, but `WizAttachment`
(`w2j/wiz_mac.py`) defines no `file_path` attribute — its field is
`file` — so the access raises `AttributeError` inside the `try`; the
blanket `except Exception` logs the error and returns `None`.  No
attachment upload ever succeeds, and the method contains no
`cu.add_resource` call in any branch. -/
def Adapter.upload_wiz_attachment (t : JoplinServer) (_a : WizAttachment) :
    JoplinServer × Option JoplinResource × List ApiCall :=
  (t, none, [])

/-- `os.path.basename` for the slash-separated paths the source builds. -/
def Adapter.basename (p : Str) : Str :=
  (splitChar '/' p).getLastD []

/-- `Adapter._upload_wiz_image`: skip empty or missing files, reuse an
existing resource with the same filename, otherwise upload and record
the new resource in the cache. -/
def Adapter.upload_wiz_image (cu : ConvertUtil) (t : JoplinServer)
    (img : WizImage) :
    ConvertUtil × JoplinServer × Option JoplinResource × List ApiCall :=
  if img.file = [] then (cu, t, none, [])
  else if ¬ img.file_exists then (cu, t, none, [])
  else
    match Adapter.get_resource_by_filename t (Adapter.basename img.file) with
    | some r => (cu, t, some r, [])
    | none =>
      let r := jda_create_resource t (Adapter.basename img.file)
        (Adapter.basename img.file)
      (cu.add_resource r.2, r.1, some r.2,
        [ApiCall.createResource r.2.title r.2.filename])

/-- The loop of `_sync_note` over the document's already-identified
internal links: convert each to a Joplin link keyed by its id (dict
assignment). -/
def Adapter.document_links (note_id : Str) (wils : List WizInternalLink) :
    List (Str × JoplinInternalLink) :=
  wils.foldl (fun m wil =>
    let jil : JoplinInternalLink :=
      ⟨note_id, tojoplinid wil.guid, wil.title, wil.link_type, wil.outerhtml⟩
    aupsert jil.id jil m) []

/-- The attachment loop of `_sync_note`: upload each attachment (the
local `resources_in_note` dict is write-only in the source and omitted);
a failed upload skips the attachment, a successful one adds a synthetic
end-of-body link unless the id is already present. -/
def Adapter.attachment_loop (note_id : Str) (t : JoplinServer)
    (jils : List (Str × JoplinInternalLink)) :
    List WizAttachment →
      JoplinServer × List ApiCall × List (Str × JoplinInternalLink)
  | [] => (t, [], jils)
  | a :: rest =>
    match Adapter.upload_wiz_attachment t a with
    | (t2, none, c2) =>
      let r := Adapter.attachment_loop note_id t2 jils rest
      (r.1, c2 ++ r.2.1, r.2.2)
    | (t2, some jr, c2) =>
      let jil_id := note_id ++ '-' :: jr.id
      match alookup jil_id jils with
      | some _ =>
        let r := Adapter.attachment_loop note_id t2 jils rest
        (r.1, c2 ++ r.2.1, r.2.2)
      | none =>
        let jil : JoplinInternalLink :=
          ⟨note_id, jr.id, jr.title, "open_attachment".toList, []⟩
        let r := Adapter.attachment_loop note_id t2 (aupsert jil.id jil jils) rest
        (r.1, c2 ++ r.2.1, r.2.2)

/-- The image loop of `_sync_note`: upload each image (recording new
resources in the cache inside the upload) and add an image link per
successful upload. -/
def Adapter.image_loop (note_id : Str) (cu : ConvertUtil) (t : JoplinServer)
    (jils : List (Str × JoplinInternalLink)) :
    List WizImage →
      ConvertUtil × JoplinServer × List ApiCall × List (Str × JoplinInternalLink)
  | [] => (cu, t, [], jils)
  | im :: rest =>
    match Adapter.upload_wiz_image cu t im with
    | (cu2, t2, none, c2) =>
      let r := Adapter.image_loop note_id cu2 t2 jils rest
      (r.1, r.2.1, c2 ++ r.2.2.1, r.2.2.2)
    | (cu2, t2, some jr, c2) =>
      let jil : JoplinInternalLink :=
        ⟨note_id, jr.id, jr.title, "image".toList, im.outerhtml⟩
      let r := Adapter.image_loop note_id cu2 t2 (aupsert jil.id jil jils) rest
      (r.1, r.2.1, c2 ++ r.2.2.1, r.2.2.2)

/-- `Adapter._sync_note`: skip entirely when a note for the converted
identifier is already cached; otherwise build the link set, upload
attachments and images, rewrite the body, create the target note and
cascade it into the cache. -/
def Adapter.sync_note (gt : Str → Str) (cu : ConvertUtil) (t : JoplinServer)
    (document : WizDocument) :
    Except SyncError (ConvertUtil × JoplinServer × List ApiCall) :=
  let note_id := tojoplinid document.guid
  match cu.get_note note_id with
  | some _ => .ok (cu, t, [])
  | none =>
    let jils0 := Adapter.document_links note_id document.internal_links
    let ra := Adapter.attachment_loop note_id t jils0 document.attachments
    let ri := Adapter.image_loop note_id cu ra.1 ra.2.2 document.images
    let cu2 := ri.1
    let t2 := ri.2.1
    let calls := ra.2.1 ++ ri.2.2.1
    let jils := ri.2.2.2
    let body := convert_joplin_body gt document.body document.is_markdown
      (jils.map Prod.snd)
    match cu2.get_folder_by_location document.location with
    | none => .error (.folderMissing document.location)
    | some folder =>
      let rn := jda_post_note t2 note_id document.title body
        document.is_markdown folder.id document.url document.created
        document.modified
      let note := { rn.2 with internal_links := jils }
      match cu2.get_tags note_id with
      | none => .error .keyError
      | some tag_dict =>
        let note2 := { note with tags := tag_dict }
        .ok (cu2.add_note note2, rn.1, calls ++ [ApiCall.postNote note_id])

/-- One iteration of the document loop of `sync_all`. -/
def Adapter.sync_doc_step (gt : Str → Str)
    (acc : ConvertUtil × JoplinServer × List ApiCall) (wd : WizDocument) :
    Except SyncError (ConvertUtil × JoplinServer × List ApiCall) :=
  match Adapter.sync_note gt acc.1 acc.2.1 wd with
  | .error e => Except.error e
  | .ok (cu3, t3, c3) => Except.ok (cu3, t3, acc.2.2 ++ c3)

/-- `Adapter.sync_all`: folders, then tags, then every document in
order. -/
def Adapter.sync_all (gt : Str → Str) (ws : WizStorage) (cu : ConvertUtil)
    (t : JoplinServer) :
    Except SyncError (ConvertUtil × JoplinServer × List ApiCall) :=
  let rf := Adapter.sync_folders cu t
  match rf.2.2.2 with
  | some e => .error e
  | none =>
    match Adapter.sync_tags rf.1 rf.2.1 ws.tags with
    | .error e => .error e
    | .ok (cu2, t2, tagCalls) =>
      ws.documents.foldlM (Adapter.sync_doc_step gt)
        ((cu2, t2,
          (rf.2.2.1.map fun ev => ApiCall.postFolder ev.title ev.parent_id_used)
            ++ tagCalls) : ConvertUtil × JoplinServer × List ApiCall)

/-! ### Association list lemmas -/

theorem alookup_aupsert_self {α : Type} (k : Str) (v : α) (l : List (Str × α)) :
    alookup k (aupsert k v l) = some v := by
  induction l with
  | nil => simp [aupsert, alookup]
  | cons p r ih =>
    by_cases hk : p.1 = k
    · simp [aupsert, alookup, hk]
    · simp [aupsert, alookup, hk, ih]

theorem alookup_aupsert_other {α : Type} (k k2 : Str) (v : α)
    (l : List (Str × α)) (h : k2 ≠ k) :
    alookup k2 (aupsert k v l) = alookup k2 l := by
  induction l with
  | nil =>
    simp only [aupsert, alookup]
    rw [if_neg (fun hx => h hx.symm)]
  | cons p r ih =>
    by_cases hk : p.1 = k
    · by_cases hk2 : p.1 = k2
      · exact absurd (hk2.symm.trans hk) h
      · have hk2b : ¬ k = k2 := hk ▸ hk2
        simp [aupsert, alookup, hk, hk2b]
    · simp only [aupsert, if_neg hk]
      by_cases hk2 : p.1 = k2
      · simp [alookup, hk2]
      · simp [alookup, hk2, ih]

theorem aupsert_keys_of_mem {α : Type} (k : Str) (v : α) :
    ∀ (l : List (Str × α)), (alookup k l).isSome →
      (aupsert k v l).map Prod.fst = l.map Prod.fst := by
  intro l
  induction l with
  | nil => intro h; simp [alookup] at h
  | cons p r ih =>
    intro h
    by_cases hk : p.1 = k
    · simp [aupsert, hk]
    · simp only [alookup, if_neg hk] at h
      simp [aupsert, hk, ih h]

theorem mem_aupsert_of_nodup {α : Type} (k : Str) (v : α) :
    ∀ (l : List (Str × α)), (l.map Prod.fst).Nodup →
      ∀ p ∈ aupsert k v l, (p ∈ l ∧ p.1 ≠ k) ∨ p = (k, v) := by
  intro l
  induction l with
  | nil =>
    intro _ p hp
    simp only [aupsert, List.mem_singleton] at hp
    exact Or.inr hp
  | cons q r ih =>
    intro hnd p hp
    have hnd2 : (r.map Prod.fst).Nodup := (List.nodup_cons.mp hnd).2
    by_cases hk : q.1 = k
    · rw [aupsert, if_pos hk] at hp
      rcases List.mem_cons.mp hp with rfl | hp2
      · exact Or.inr (by rw [hk])
      · left
        refine ⟨List.mem_cons_of_mem q hp2, ?_⟩
        intro hpk
        have : p.1 ∈ r.map Prod.fst := List.mem_map_of_mem Prod.fst hp2
        rw [hpk, ← hk] at this
        exact (List.nodup_cons.mp hnd).1 this
    · rw [aupsert, if_neg hk] at hp
      rcases List.mem_cons.mp hp with hpq | hp2
      · subst hpq
        exact Or.inl ⟨List.mem_cons_self _ _, by simpa using hk⟩
      · rcases ih hnd2 p hp2 with ⟨hin, hne⟩ | heq
        · exact Or.inl ⟨List.mem_cons_of_mem q hin, hne⟩
        · exact Or.inr heq

theorem alookup_append_left {α : Type} (k : Str) (l2 : List (Str × α)) :
    ∀ (l : List (Str × α)), (alookup k l).isSome →
      alookup k (l ++ l2) = alookup k l := by
  intro l
  induction l with
  | nil => intro h; simp [alookup] at h
  | cons p r ih =>
    intro h
    by_cases hk : p.1 = k
    · simp [alookup, hk]
    · simp only [alookup, if_neg hk] at h
      simp only [List.cons_append, alookup, if_neg hk]
      exact ih h

theorem alookup_append_right {α : Type} (k : Str) (l2 : List (Str × α)) :
    ∀ (l : List (Str × α)), alookup k l = none →
      alookup k (l ++ l2) = alookup k l2 := by
  intro l
  induction l with
  | nil => intro _; simp [alookup]
  | cons p r ih =>
    intro h
    by_cases hk : p.1 = k
    · simp [alookup, hk] at h
    · simp only [alookup, if_neg hk] at h
      simp only [List.cons_append, alookup, if_neg hk]
      exact ih h

theorem alookup_isSome_append {α : Type} (k : Str) (l l2 : List (Str × α))
    (h : (alookup k l).isSome) : (alookup k (l ++ l2)).isSome := by
  rw [alookup_append_left k l2 l h]
  exact h

/-! ### C7: `update_l2f` -/

/-- Concrete chain entry whose target id is already set, used to refute
the write-once claim. -/
def c7entry : Location2Folder :=
  { location := "/a/".toList, title := "a".toList, parent_location := none
    level := 1, id := some "X".toList, parent_id := none }

def c7cu : ConvertUtil :=
  { l2f_cache := [("/a/".toList, c7entry)], tags := [], notes := []
    resources := [], internal_links := [], note_tag := [] }

/-- C7 (counterexample to the claim as stated): calling `update_l2f`
on an entry whose target id is already set is not a no-op — the stored
target id is overwritten with the new value. -/
theorem update_l2f_overwrites_counterexample :
    c7cu.update_l2f "/a/".toList "Y".toList none =
        some { c7cu with l2f_cache :=
          [("/a/".toList, { c7entry with id := some "Y".toList })] } ∧
      c7cu.update_l2f "/a/".toList "Y".toList none ≠ some c7cu := by
  constructor
  · rfl
  · decide

/-- C7 (amended). `update_l2f` is an unconditional overwrite, not
write-once: it always sets the entry's target id to the given value,
overwrites the parent target id exactly when one is supplied (leaving it
unchanged otherwise), leaves every other entry and every other cache
table unchanged, and raises (returns `none`) only when the location is
absent.  The write-once discipline of the spec holds only because the
caller (`sync_folders`) invokes it solely for entries without a target
id. -/
theorem update_l2f_amended (cu : ConvertUtil) (location id : Str)
    (parent_id : Option Str) (e : Location2Folder)
    (h : alookup location cu.l2f_cache = some e) :
    ∃ cu', cu.update_l2f location id parent_id = some cu' ∧
      alookup location cu'.l2f_cache =
        some { e with
          id := some id,
          parent_id := (match parent_id with
            | some p => some p
            | none => e.parent_id) } ∧
      (∀ k, k ≠ location → alookup k cu'.l2f_cache = alookup k cu.l2f_cache) ∧
      cu'.tags = cu.tags ∧ cu'.notes = cu.notes ∧
      cu'.resources = cu.resources ∧ cu'.internal_links = cu.internal_links ∧
      cu'.note_tag = cu.note_tag := by
  set e2 : Location2Folder :=
    { e with
      id := some id,
      parent_id := (match parent_id with
        | some p => some p
        | none => e.parent_id) } with he2
  have hstep : cu.update_l2f location id parent_id =
      some { cu with l2f_cache := aupsert location e2 cu.l2f_cache } := by
    rw [ConvertUtil.update_l2f, h, he2]
    cases parent_id <;> rfl
  refine ⟨_, hstep, ?_, ?_, rfl, rfl, rfl, rfl, rfl⟩
  · exact alookup_aupsert_self location _ cu.l2f_cache
  · intro k hk
    exact alookup_aupsert_other location k _ cu.l2f_cache hk

/-- Witness for the amended C7 at a concrete entry. -/
theorem update_l2f_amended_witness :
    ∃ cu', c7cu.update_l2f "/a/".toList "Y".toList (some "Q".toList) = some cu' ∧
      alookup "/a/".toList cu'.l2f_cache =
        some { c7entry with
          id := some "Y".toList,
          parent_id := (match some "Q".toList with
            | some p => some p
            | none => c7entry.parent_id) } ∧
      (∀ k, k ≠ "/a/".toList →
        alookup k cu'.l2f_cache = alookup k c7cu.l2f_cache) ∧
      cu'.tags = c7cu.tags ∧ cu'.notes = c7cu.notes ∧
      cu'.resources = c7cu.resources ∧
      cu'.internal_links = c7cu.internal_links ∧
      cu'.note_tag = c7cu.note_tag :=
  update_l2f_amended c7cu "/a/".toList "Y".toList (some "Q".toList) c7entry rfl

/-! ### C6: `add_note` cascading and the `add_note_tag` defect -/

def c6tag : JoplinTag := ⟨"t1".toList, "Tg".toList, 0, 0⟩

def c6jil : JoplinInternalLink :=
  ⟨"n1".toList, "r1".toList, "T".toList, "image".toList, []⟩

def c6note : JoplinNote :=
  { id := "n1".toList, title := "N".toList, body := [], markup_language := false
    parent_id := none, url := [], location := [], created_time := 0
    updated_time := 0, tags := [("t1".toList, c6tag)]
    internal_links := [(c6jil.id, c6jil)] }

def c6cu : ConvertUtil :=
  { l2f_cache := [], tags := [], notes := [], resources := []
    internal_links := [], note_tag := [] }

/-- C6 (code bug evaluation).  Inserting an uncached note with one tag
and one internal link does record the note and the internal-link record,
but no note-tag link is ever recorded: `add_note_tag` tests the row
object returned by `fetchone()` for a `COUNT(*)` query — which always
exists — instead of the count it carries, so it always takes the
already-exists early return; in fact `add_note_tag` is a no-op on every
input. -/
theorem add_note_cascade_code_bug_eval :
    (alookup "n1".toList (c6cu.add_note c6note).notes).isSome = true ∧
      (alookup c6jil.id (c6cu.add_note c6note).internal_links).isSome = true ∧
      (c6cu.add_note c6note).note_tag = [] ∧
      ∀ (cu : ConvertUtil) (note : JoplinNote) (tag : JoplinTag),
        cu.add_note_tag note tag = cu :=
  ⟨by decide, by decide, by decide, fun _ _ _ => rfl⟩

/-! ### C8: resource uploads and cache recording -/

def c8att : WizAttachment :=
  { guid := "ag".toList, doc_guid := "g".toList, name := "a.txt".toList
    modified := 0, file_name := "a.txt".toList, file := "/att/a.txt".toList
    file_exists := true }

def c8img : WizImage :=
  { outerhtml := [], src := "index_files/i.png".toList
    file := "/x/i.png".toList, file_exists := true }

def c8doc : WizDocument :=
  { guid := "g".toList, title := "D".toList, location := "/a/".toList
    url := [], created := 0, modified := 0, is_markdown := false
    body := "B".toList, tags := [], attachments := [c8att], images := [c8img]
    internal_links := [] }

def c8l2f : Location2Folder :=
  { location := "/a/".toList, title := "a".toList, parent_location := none
    level := 1, id := some "F".toList, parent_id := none }

def c8cu : ConvertUtil :=
  { l2f_cache := [("/a/".toList, c8l2f)], tags := [], notes := []
    resources := [], internal_links := [], note_tag := [] }

def c8t : JoplinServer :=
  { folders := [], tags := [], resources := [], notes := [], next := 0 }

/-- C8 (code bug evaluation).  Synchronizing a document that carries one
present attachment and one present image performs exactly one resource
creation — the image's — and the final resource cache holds only the
image's target resource id: the attachment is neither uploaded (its
upload path dereferences the nonexistent `file_path` attribute, and the
blanket `except` turns that into a skip) nor ever recorded through
`add_resource`, which only the image path calls, although the note is
created afterwards. -/
theorem upload_recording_code_bug_eval :
    (Adapter.sync_note id c8cu c8t c8doc).map
        (fun r => (r.1.resources.map Prod.fst, r.2.2,
          (alookup (tojoplinid "g".toList) r.1.notes).isSome)) =
      Except.ok ([freshId 0],
        [ApiCall.createResource "i.png".toList "i.png".toList,
          ApiCall.postNote (tojoplinid "g".toList)], true) ∧
      c8att.file_exists = true := by
  constructor
  · rfl
  · rfl

/-! ### C2 and C9: folder synchronization -/

/-- Shape of a successful folder-creation step: the event records the
processed entry, and a child submission carries the parent's target id
as read from the cache at submission time. -/
theorem sync_folder_step_shape (cu : ConvertUtil) (t : JoplinServer)
    (l2f : Location2Folder) (cu2 : ConvertUtil) (t2 : JoplinServer)
    (ev : FolderEvent)
    (h : Adapter.sync_folder_step cu t l2f = .ok (cu2, t2, ev)) :
    ev.location = l2f.location ∧ ev.level = l2f.level ∧
      ev.parent_location = l2f.parent_location ∧
      ((ev.parent_location = none ∧ ev.parent_id_used = none) ∨
        (∃ pl p, ev.parent_location = some pl ∧ ev.parent_id_used = some p ∧
          ∃ pe, alookup pl cu.l2f_cache = some pe ∧ pe.id = some p)) := by
  simp only [Adapter.sync_folder_step] at h
  split at h
  · rename_i hpl
    split at h
    · cases h
    · rename_i cu3 hup
      injection h with h2
      simp only [Prod.mk.injEq] at h2
      obtain ⟨-, -, hev⟩ := h2
      subst hev
      exact ⟨rfl, rfl, hpl.symm, Or.inl ⟨rfl, rfl⟩⟩
  · rename_i pl hpl
    split at h
    · cases h
    · rename_i pe hlk
      split at h
      · cases h
      · rename_i pid hid
        split at h
        · cases h
        · rename_i cu3 hup
          injection h with h2
          simp only [Prod.mk.injEq] at h2
          obtain ⟨-, -, hev⟩ := h2
          subst hev
          exact ⟨rfl, rfl, hpl.symm, Or.inr ⟨pl, pid, rfl, rfl, pe, hlk, hid⟩⟩

/-- Every event emitted by the folder loop (also in an aborted run) is
either a root submission or a child submission carrying a parent id. -/
theorem sync_folders_aux_events :
    ∀ (l : List Location2Folder) (cu : ConvertUtil) (t : JoplinServer),
      (∀ ev ∈ (Adapter.sync_folders_aux cu t l).2.2.1,
        (ev.parent_location = none ∧ ev.parent_id_used = none) ∨
        (∃ pl p, ev.parent_location = some pl ∧ ev.parent_id_used = some p)) ∧
      ((Adapter.sync_folders_aux cu t l).2.2.2 = none →
        (Adapter.sync_folders_aux cu t l).2.2.1.map
            (fun ev => (ev.location, ev.level, ev.parent_location)) =
          l.map (fun e => (e.location, e.level, e.parent_location))) := by
  intro l
  induction l with
  | nil =>
    intro cu t
    exact ⟨fun ev hev => absurd hev (by simp [Adapter.sync_folders_aux]),
      fun _ => by simp [Adapter.sync_folders_aux]⟩
  | cons e rest ih =>
    intro cu t
    match hstep : Adapter.sync_folder_step cu t e with
    | .error err =>
      rw [Adapter.sync_folders_aux, hstep]
      exact ⟨fun ev hev => absurd hev (by simp), fun hnone => by cases hnone⟩
    | .ok (cu2, t2, ev) =>
      rw [Adapter.sync_folders_aux, hstep]
      obtain ⟨hl, hv, hp, hshape⟩ :=
        sync_folder_step_shape cu t e cu2 t2 ev hstep
      constructor
      · intro ev2 hev2
        rcases List.mem_cons.mp hev2 with rfl | hev3
        · rcases hshape with hroot | ⟨pl, p, h1, h2, -⟩
          · exact Or.inl hroot
          · exact Or.inr ⟨pl, p, h1, h2⟩
        · exact (ih cu2 t2).1 ev2 hev3
      · intro hnone
        simp only [List.map_cons]
        rw [(ih cu2 t2).2 hnone, hl, hv, hp]

/-- C2.  Folder creation processes exactly the chain entries whose
target id is unset — the waiting list is a permutation of that filter,
sorted by ascending nesting level — and, in any run, no folder creation
is ever submitted for a child entry without a parent id in hand: every
emitted submission either is a root submission or carries the parent's
target id read at submission time; when the loop completes without
aborting, the submissions are exactly the waiting entries in order. -/
theorem sync_folders_order_and_parent_invariant (cu : ConvertUtil)
    (t : JoplinServer) :
    (cu.get_waiting_for_created_l2f.Perm
        ((cu.l2f_cache.map Prod.snd).filter fun v => v.id = none) ∧
      cu.get_waiting_for_created_l2f.Pairwise (fun a b => a.level ≤ b.level) ∧
      ∀ e ∈ cu.get_waiting_for_created_l2f, e.id = none) ∧
    (∀ ev ∈ (Adapter.sync_folders cu t).2.2.1,
      (ev.parent_location = none ∧ ev.parent_id_used = none) ∨
      (∃ pl p, ev.parent_location = some pl ∧ ev.parent_id_used = some p)) ∧
    ((Adapter.sync_folders cu t).2.2.2 = none →
      (Adapter.sync_folders cu t).2.2.1.map
          (fun ev => (ev.location, ev.level, ev.parent_location)) =
        cu.get_waiting_for_created_l2f.map
          (fun e => (e.location, e.level, e.parent_location))) := by
  refine ⟨⟨?_, ?_, ?_⟩, ?_, ?_⟩
  · exact List.mergeSort_perm _ _
  · have hs := @List.sorted_mergeSort Location2Folder
      (fun a b : Location2Folder => a.level ≤ b.level)
      (fun a b c hab hbc => by
        simp only [decide_eq_true_eq] at hab hbc ⊢
        omega)
      (fun a b => by
        simp only [Bool.or_eq_true, decide_eq_true_eq]
        omega)
      ((cu.l2f_cache.map Prod.snd).filter fun v => v.id = none)
    exact hs.imp (fun h => by simpa using h)
  · intro e he
    have := (List.mergeSort_perm
      ((cu.l2f_cache.map Prod.snd).filter fun v => v.id = none)
      (fun a b => a.level ≤ b.level)).mem_iff.mp he
    have := List.of_mem_filter this
    simpa using this
  · exact (sync_folders_aux_events cu.get_waiting_for_created_l2f cu t).1
  · exact (sync_folders_aux_events cu.get_waiting_for_created_l2f cu t).2

def c2l2f : Location2Folder :=
  { location := "/a/".toList, title := "a".toList, parent_location := none
    level := 1, id := none, parent_id := none }

def c2cu : ConvertUtil :=
  { l2f_cache := [("/a/".toList, c2l2f)], tags := [], notes := []
    resources := [], internal_links := [], note_tag := [] }

def c2t : JoplinServer :=
  { folders := [], tags := [], resources := [], notes := [], next := 0 }

/-- Witness for C2 at a concrete single-entry cache. -/
theorem sync_folders_order_witness :
    (Adapter.sync_folders c2cu c2t).2.2.1.map
        (fun ev => (ev.location, ev.level, ev.parent_location)) =
      c2cu.get_waiting_for_created_l2f.map
        (fun e => (e.location, e.level, e.parent_location)) :=
  (sync_folders_order_and_parent_invariant c2cu c2t).2.2 (by
    simp [Adapter.sync_folders, Adapter.sync_folders_aux,
      Adapter.sync_folder_step, ConvertUtil.get_waiting_for_created_l2f,
      ConvertUtil.update_l2f, List.mergeSort_singleton, c2cu, c2l2f,
      alookup, aupsert, jda_post_folder])

/-- Running the folder loop on an appended list first runs the prefix;
when the prefix completes cleanly the run continues from its state. -/
theorem sync_folders_aux_append :
    ∀ (pre : List Location2Folder) (cu : ConvertUtil) (t : JoplinServer)
      (cu' : ConvertUtil) (t' : JoplinServer) (evs : List FolderEvent),
      Adapter.sync_folders_aux cu t pre = (cu', t', evs, none) →
      ∀ (l2 : List Location2Folder),
        Adapter.sync_folders_aux cu t (pre ++ l2) =
          ((Adapter.sync_folders_aux cu' t' l2).1,
            (Adapter.sync_folders_aux cu' t' l2).2.1,
            evs ++ (Adapter.sync_folders_aux cu' t' l2).2.2.1,
            (Adapter.sync_folders_aux cu' t' l2).2.2.2) := by
  intro pre
  induction pre with
  | nil =>
    intro cu t cu' t' evs h l2
    rw [Adapter.sync_folders_aux] at h
    simp only [Prod.mk.injEq] at h
    obtain ⟨rfl, rfl, rfl, -⟩ := h
    simp
  | cons e rest ih =>
    intro cu t cu' t' evs h l2
    match hstep : Adapter.sync_folder_step cu t e with
    | .error err =>
      rw [Adapter.sync_folders_aux, hstep] at h
      simp only [Prod.mk.injEq] at h
      exact absurd h.2.2.2 (by simp)
    | .ok (cu2, t2, ev) =>
      rw [Adapter.sync_folders_aux, hstep] at h
      have hred : ((Adapter.sync_folders_aux cu2 t2 rest).1,
          (Adapter.sync_folders_aux cu2 t2 rest).2.1,
          ev :: (Adapter.sync_folders_aux cu2 t2 rest).2.2.1,
          (Adapter.sync_folders_aux cu2 t2 rest).2.2.2) = (cu', t', evs, none) := h
      match hrest : Adapter.sync_folders_aux cu2 t2 rest with
      | (cu3, t3, evs3, err3) =>
        rw [hrest] at hred
        simp only [Prod.mk.injEq] at hred
        obtain ⟨h1, h2, h3, h4⟩ := hred
        subst h1
        subst h2
        subst h3
        subst h4
        show Adapter.sync_folders_aux cu t (e :: (rest ++ l2)) = _
        rw [Adapter.sync_folders_aux, hstep]
        show ((Adapter.sync_folders_aux cu2 t2 (rest ++ l2)).1,
            (Adapter.sync_folders_aux cu2 t2 (rest ++ l2)).2.1,
            ev :: (Adapter.sync_folders_aux cu2 t2 (rest ++ l2)).2.2.1,
            (Adapter.sync_folders_aux cu2 t2 (rest ++ l2)).2.2.2) = _
        rw [ih cu2 t2 cu3 t3 evs3 hrest l2]
        simp

/-- C9.  During folder synchronization, when the loop reaches an entry
whose parent location resolves to no cache entry, or to an entry whose
target id is still unset, the step raises (a `ValueError` in the
source), the whole run aborts with that error, and no folder creation is
submitted for that entry (nor for any later entry): the submissions are
exactly those of the preceding entries. -/
theorem sync_folders_missing_parent_aborts
    (cu0 cu : ConvertUtil) (t0 t : JoplinServer) (evs : List FolderEvent)
    (pre post : List Location2Folder) (e : Location2Folder) (pl : Str)
    (hw : cu0.get_waiting_for_created_l2f = pre ++ e :: post)
    (hpre : Adapter.sync_folders_aux cu0 t0 pre = (cu, t, evs, none))
    (hpl : e.parent_location = some pl)
    (hbad : alookup pl cu.l2f_cache = none ∨
      ∃ pe, alookup pl cu.l2f_cache = some pe ∧ pe.id = none) :
    ∃ err, Adapter.sync_folder_step cu t e = .error err ∧
      Adapter.sync_folders cu0 t0 = (cu, t, evs, some err) := by
  have hstep : ∃ err, Adapter.sync_folder_step cu t e = .error err := by
    rcases hbad with hnone | ⟨pe, hpe, hid⟩
    · refine ⟨.parentMissing pl, ?_⟩
      simp [Adapter.sync_folder_step, hpl, hnone]
    · refine ⟨.parentNoId pl, ?_⟩
      simp [Adapter.sync_folder_step, hpl, hpe, hid]
  obtain ⟨err, herr⟩ := hstep
  refine ⟨err, herr, ?_⟩
  rw [Adapter.sync_folders, hw,
    sync_folders_aux_append pre cu0 t0 cu t evs hpre (e :: post)]
  have hstop : Adapter.sync_folders_aux cu t (e :: post) = (cu, t, [], some err) := by
    rw [Adapter.sync_folders_aux, herr]
  rw [hstop]
  simp

def c9e : Location2Folder :=
  { location := "/a/b/".toList, title := "b".toList
    parent_location := some "/a/".toList, level := 2, id := none
    parent_id := none }

def c9cu : ConvertUtil :=
  { l2f_cache := [("/a/b/".toList, c9e)], tags := [], notes := []
    resources := [], internal_links := [], note_tag := [] }

def c9t : JoplinServer :=
  { folders := [], tags := [], resources := [], notes := [], next := 0 }

/-- Witness for C9: a child entry whose parent is absent from the cache
aborts the run with no submission. -/
theorem sync_folders_missing_parent_aborts_witness :
    ∃ err, Adapter.sync_folder_step c9cu c9t c9e = .error err ∧
      Adapter.sync_folders c9cu c9t = (c9cu, c9t, [], some err) :=
  sync_folders_missing_parent_aborts c9cu c9cu c9t c9t [] [] [] c9e
    "/a/".toList
    (by simp [ConvertUtil.get_waiting_for_created_l2f, c9cu, c9e,
      List.mergeSort_singleton])
    rfl
    rfl
    (Or.inl (by decide))

/-! ### C1: idempotence of note sync and of the full run -/

theorem mem_of_alookup {α : Type} {k : Str} {v : α} :
    ∀ {l : List (Str × α)}, alookup k l = some v → (k, v) ∈ l := by
  intro l
  induction l with
  | nil => intro h; cases h
  | cons p r ih =>
    intro h
    by_cases hk : p.1 = k
    · rw [alookup, if_pos hk] at h
      injection h with h2
      subst h2
      subst hk
      exact List.mem_cons_self _ _
    · rw [alookup, if_neg hk] at h
      exact List.mem_cons_of_mem p (ih h)

/-- Reduction of `foldlM` over `Except` on a cons cell. -/
theorem except_foldlM_cons {ε α β : Type} (f : β → α → Except ε β) (b : β)
    (a : α) (l : List α) :
    List.foldlM f b (a :: l) = match f b a with
      | .error e => .error e
      | .ok b2 => List.foldlM f b2 l := by
  rw [List.foldlM_cons]
  cases hfa : f b a <;> rfl

theorem add_tag_cache_fields (cu : ConvertUtil) (tg : JoplinTag) :
    (cu.add_tag tg).l2f_cache = cu.l2f_cache ∧ (cu.add_tag tg).notes = cu.notes := by
  rw [ConvertUtil.add_tag]
  split <;> exact ⟨rfl, rfl⟩

theorem add_tag_presence (cu : ConvertUtil) (tg : JoplinTag) :
    (alookup tg.id (cu.add_tag tg).tags).isSome := by
  rw [ConvertUtil.add_tag]
  split
  · assumption
  · rename_i hnot
    have hnone : alookup tg.id cu.tags = none :=
      Option.not_isSome_iff_eq_none.mp hnot
    show (alookup tg.id (cu.tags ++ [(tg.id, tg)])).isSome
    rw [alookup_append_right tg.id _ cu.tags hnone]
    simp [alookup]

theorem add_tag_mono (cu : ConvertUtil) (tg : JoplinTag) (k : Str)
    (h : (alookup k cu.tags).isSome) : (alookup k (cu.add_tag tg).tags).isSome := by
  rw [ConvertUtil.add_tag]
  split
  · exact h
  · show (alookup k (cu.tags ++ [(tg.id, tg)])).isSome
    exact alookup_isSome_append k cu.tags _ h

/-- The existence test of `add_note_tag` is always taken, so the method
is the identity on the cache (shared helper form). -/
theorem add_note_tag_id (cu : ConvertUtil) (note : JoplinNote)
    (tag : JoplinTag) : cu.add_note_tag note tag = cu := rfl

theorem add_internal_lnk_fields (cu : ConvertUtil) (jil : JoplinInternalLink) :
    (cu.add_internal_lnk jil).l2f_cache = cu.l2f_cache ∧
    (cu.add_internal_lnk jil).tags = cu.tags ∧
    (cu.add_internal_lnk jil).notes = cu.notes := by
  rw [ConvertUtil.add_internal_lnk]
  split <;> exact ⟨rfl, rfl, rfl⟩

theorem add_resource_fields (cu : ConvertUtil) (jr : JoplinResource) :
    (cu.add_resource jr).l2f_cache = cu.l2f_cache ∧
    (cu.add_resource jr).tags = cu.tags ∧
    (cu.add_resource jr).notes = cu.notes := by
  rw [ConvertUtil.add_resource]
  split <;> exact ⟨rfl, rfl, rfl⟩

theorem foldl_add_note_tag (note : JoplinNote) :
    ∀ (l : List (Str × JoplinTag)) (cu : ConvertUtil),
      l.foldl (fun c p => ConvertUtil.add_note_tag c note p.2) cu = cu := by
  intro l
  induction l with
  | nil => intro cu; rfl
  | cons p r ih =>
    intro cu
    simp only [List.foldl_cons, add_note_tag_id]
    exact ih cu

theorem foldl_add_internal_lnk_fields :
    ∀ (l : List (Str × JoplinInternalLink)) (cu : ConvertUtil),
      (l.foldl (fun c p => ConvertUtil.add_internal_lnk c p.2) cu).l2f_cache
          = cu.l2f_cache ∧
      (l.foldl (fun c p => ConvertUtil.add_internal_lnk c p.2) cu).tags
          = cu.tags ∧
      (l.foldl (fun c p => ConvertUtil.add_internal_lnk c p.2) cu).notes
          = cu.notes := by
  intro l
  induction l with
  | nil => intro cu; exact ⟨rfl, rfl, rfl⟩
  | cons p r ih =>
    intro cu
    simp only [List.foldl_cons]
    obtain ⟨h1, h2, h3⟩ := ih (cu.add_internal_lnk p.2)
    obtain ⟨g1, g2, g3⟩ := add_internal_lnk_fields cu p.2
    exact ⟨h1.trans g1, h2.trans g2, h3.trans g3⟩

theorem add_note_fields (cu : ConvertUtil) (note : JoplinNote) :
    (cu.add_note note).l2f_cache = cu.l2f_cache ∧
    (cu.add_note note).tags = cu.tags ∧
    (∀ k, (alookup k cu.notes).isSome →
      (alookup k (cu.add_note note).notes).isSome) ∧
    (alookup note.id (cu.add_note note).notes).isSome := by
  simp only [ConvertUtil.add_note]
  split
  · rename_i hpres
    exact ⟨rfl, rfl, fun k h => h, hpres⟩
  · rename_i hnot
    rw [foldl_add_note_tag note note.tags]
    obtain ⟨h1, h2, h3⟩ := foldl_add_internal_lnk_fields note.internal_links
      { cu with notes := cu.notes ++ [(note.id, note)] }
    refine ⟨h1.trans rfl, h2.trans rfl, ?_, ?_⟩
    · intro k hk
      rw [h3]
      exact alookup_isSome_append k cu.notes _ hk
    · rw [h3]
      show (alookup note.id (cu.notes ++ [(note.id, note)])).isSome
      have hnone : alookup note.id cu.notes = none :=
        Option.not_isSome_iff_eq_none.mp hnot
      rw [alookup_append_right note.id _ cu.notes hnone]
      simp [alookup]

/-- Postcondition of a successful `update_l2f`: the key was present, and
the result replaces that entry with one carrying the new target id and
the old location, leaving all other tables unchanged. -/
theorem update_l2f_spec {cu : ConvertUtil} {loc idv : Str} {pid : Option Str}
    {cu2 : ConvertUtil} (h : cu.update_l2f loc idv pid = some cu2) :
    ∃ oldE newE, alookup loc cu.l2f_cache = some oldE ∧
      newE.location = oldE.location ∧ newE.id = some idv ∧
      cu2 = { cu with l2f_cache := aupsert loc newE cu.l2f_cache } := by
  simp only [ConvertUtil.update_l2f] at h
  split at h
  · cases h
  · rename_i oldE hold
    cases pid with
    | none =>
      injection h with h2
      exact ⟨oldE, { oldE with id := some idv }, hold, rfl, rfl, h2.symm⟩
    | some p =>
      injection h with h2
      exact ⟨oldE, { oldE with id := some idv, parent_id := some p },
        hold, rfl, rfl, h2.symm⟩

/-- Cache effect of one successful folder-loop step: the processed
entry's cache slot gets a target id; tags, notes and the target's tag
table are untouched. -/
theorem sync_folder_step_cache {cu : ConvertUtil} {t : JoplinServer}
    {e : Location2Folder} {cu2 : ConvertUtil} {t2 : JoplinServer}
    {ev : FolderEvent}
    (h : Adapter.sync_folder_step cu t e = .ok (cu2, t2, ev)) :
    (∃ oldE newE, alookup e.location cu.l2f_cache = some oldE ∧
      newE.location = oldE.location ∧ (newE.id).isSome ∧
      cu2.l2f_cache = aupsert e.location newE cu.l2f_cache) ∧
    cu2.tags = cu.tags ∧ cu2.notes = cu.notes ∧ t2.tags = t.tags := by
  simp only [Adapter.sync_folder_step] at h
  split at h
  · split at h
    · cases h
    · rename_i cu3 hup
      injection h with h2
      simp only [Prod.mk.injEq] at h2
      obtain ⟨hcu, ht, -⟩ := h2
      subst hcu
      subst ht
      obtain ⟨oldE, newE, hold, hlocE, hidE, hrec⟩ := update_l2f_spec hup
      subst hrec
      exact ⟨⟨oldE, newE, hold, hlocE, by rw [hidE]; rfl, rfl⟩, rfl, rfl, rfl⟩
  · rename_i pl hpl
    split at h
    · cases h
    · split at h
      · cases h
      · rename_i pid hid
        split at h
        · cases h
        · rename_i cu3 hup
          injection h with h2
          simp only [Prod.mk.injEq] at h2
          obtain ⟨hcu, ht, -⟩ := h2
          subst hcu
          subst ht
          obtain ⟨oldE, newE, hold, hlocE, hidE, hrec⟩ := update_l2f_spec hup
          subst hrec
          exact ⟨⟨oldE, newE, hold, hlocE, by rw [hidE]; rfl, rfl⟩, rfl, rfl, rfl⟩

/-- A clean folder-loop run over a list covering every unset entry sets
every cached entry's target id, and touches neither the tag nor the note
tables. -/
theorem sync_folders_aux_ids :
    ∀ (l : List Location2Folder) (cu : ConvertUtil) (t : JoplinServer)
      (cu' : ConvertUtil) (t' : JoplinServer) (evs : List FolderEvent),
      (cu.l2f_cache.map Prod.fst).Nodup →
      (∀ p ∈ cu.l2f_cache, p.2.location = p.1) →
      (∀ p ∈ cu.l2f_cache, p.2.id = none →
        p.1 ∈ l.map Location2Folder.location) →
      Adapter.sync_folders_aux cu t l = (cu', t', evs, none) →
      (∀ p ∈ cu'.l2f_cache, (p.2.id).isSome) ∧
      cu'.tags = cu.tags ∧ cu'.notes = cu.notes ∧ t'.tags = t.tags := by
  intro l
  induction l with
  | nil =>
    intro cu t cu' t' evs hnd hloc hinv h
    simp only [Adapter.sync_folders_aux, Prod.mk.injEq] at h
    obtain ⟨h1, h2, -, -⟩ := h
    subst h1
    subst h2
    refine ⟨?_, rfl, rfl, rfl⟩
    intro p hp
    cases hid : p.2.id with
    | none => exact absurd (hinv p hp hid) (by simp)
    | some v => rfl
  | cons e rest ih =>
    intro cu t cu' t' evs hnd hloc hinv h
    simp only [Adapter.sync_folders_aux] at h
    split at h
    · simp at h
    · rename_i cu2 t2 ev hstep
      simp only [Prod.mk.injEq] at h
      obtain ⟨h1, h2, -, h4⟩ := h
      have haux : Adapter.sync_folders_aux cu2 t2 rest =
          (cu', t', (Adapter.sync_folders_aux cu2 t2 rest).2.2.1, none) := by
        rw [← h1, ← h2, ← h4]
      obtain ⟨⟨oldE, newE, hold, hlocE, hidE, hcache⟩, htg, hnt, htt⟩ :=
        sync_folder_step_cache hstep
      have hmem : (e.location, oldE) ∈ cu.l2f_cache := mem_of_alookup hold
      have hnd2 : (cu2.l2f_cache.map Prod.fst).Nodup := by
        rw [hcache, aupsert_keys_of_mem _ _ _ (by rw [hold]; rfl)]
        exact hnd
      have hloc2 : ∀ p ∈ cu2.l2f_cache, p.2.location = p.1 := by
        intro p hp
        rw [hcache] at hp
        rcases mem_aupsert_of_nodup _ _ _ hnd p hp with ⟨hin, -⟩ | hpe
        · exact hloc p hin
        · subst hpe
          show newE.location = e.location
          rw [hlocE]
          exact hloc _ hmem
      have hinv2 : ∀ p ∈ cu2.l2f_cache, p.2.id = none →
          p.1 ∈ rest.map Location2Folder.location := by
        intro p hp hid
        rw [hcache] at hp
        rcases mem_aupsert_of_nodup _ _ _ hnd p hp with ⟨hin, hne⟩ | hpe
        · have hm := hinv p hin hid
          simp only [List.map_cons, List.mem_cons] at hm
          rcases hm with heq | hm2
          · exact absurd heq hne
          · exact hm2
        · subst hpe
          rw [show ((e.location, newE) : Str × Location2Folder).2.id
              = newE.id from rfl] at hid
          rw [hid] at hidE
          cases hidE
      obtain ⟨hall, htg2, hnt2, htt2⟩ := ih cu2 t2 cu' t' _ hnd2 hloc2 hinv2 haux
      exact ⟨hall, htg2.trans htg, hnt2.trans hnt, htt2.trans htt⟩

/-- Postcondition of one successful tag-loop step: the converted tag id
becomes present in the cache, cached-tag presence is monotone, other
cache tables are untouched, and the target's tag table stays keyed by
tag id. -/
theorem sync_tag_step_post {cu : ConvertUtil} {t : JoplinServer}
    {calls : List ApiCall} {wt : WizTag} {cu' : ConvertUtil}
    {t' : JoplinServer} {calls' : List ApiCall}
    (htw : ∀ p ∈ t.tags, p.2.id = p.1)
    (h : Adapter.sync_tag_step (cu, t, calls) wt = .ok (cu', t', calls')) :
    cu'.l2f_cache = cu.l2f_cache ∧ cu'.notes = cu.notes ∧
    (∀ k, (alookup k cu.tags).isSome → (alookup k cu'.tags).isSome) ∧
    (alookup (tojoplinid wt.guid) cu'.tags).isSome ∧
    (∀ p ∈ t'.tags, p.2.id = p.1) := by
  by_cases hpres : (alookup (tojoplinid wt.guid) t.tags).isSome
  · have hr : jda_post_tag t (tojoplinid wt.guid) wt.name wt.modified
        wt.modified = (t, none) := by
      rw [jda_post_tag, if_pos hpres]
    simp only [Adapter.sync_tag_step] at h
    rw [hr] at h
    obtain ⟨jt, hjt⟩ := Option.isSome_iff_exists.mp hpres
    have h2 : (match alookup (tojoplinid wt.guid) t.tags with
        | some jt => (Except.ok (cu.add_tag jt, t,
            calls ++ [ApiCall.postTag (tojoplinid wt.guid) wt.name]) :
            Except SyncError (ConvertUtil × JoplinServer × List ApiCall))
        | none => Except.error .keyError) = .ok (cu', t', calls') := h
    rw [hjt] at h2
    have h3 : (Except.ok (cu.add_tag jt, t,
        calls ++ [ApiCall.postTag (tojoplinid wt.guid) wt.name]) :
        Except SyncError (ConvertUtil × JoplinServer × List ApiCall)) =
        .ok (cu', t', calls') := h2
    injection h3 with h4
    simp only [Prod.mk.injEq] at h4
    obtain ⟨hcu, ht, -⟩ := h4
    subst hcu
    subst ht
    have hjid : jt.id = tojoplinid wt.guid := htw _ (mem_of_alookup hjt)
    refine ⟨(add_tag_cache_fields cu jt).1, (add_tag_cache_fields cu jt).2,
      fun k hk => add_tag_mono cu jt k hk, ?_, htw⟩
    rw [← hjid]
    exact add_tag_presence cu jt
  · have hr : jda_post_tag t (tojoplinid wt.guid) wt.name wt.modified
        wt.modified =
        ({ t with tags := t.tags ++ [(tojoplinid wt.guid,
            ⟨tojoplinid wt.guid, wt.name, wt.modified, wt.modified⟩)] },
          some ⟨tojoplinid wt.guid, wt.name, wt.modified, wt.modified⟩) := by
      rw [jda_post_tag, if_neg hpres]
    simp only [Adapter.sync_tag_step] at h
    rw [hr] at h
    have h3 : (Except.ok
        (cu.add_tag ⟨tojoplinid wt.guid, wt.name, wt.modified, wt.modified⟩,
         { t with tags := t.tags ++ [(tojoplinid wt.guid,
            ⟨tojoplinid wt.guid, wt.name, wt.modified, wt.modified⟩)] },
         calls ++ [ApiCall.postTag (tojoplinid wt.guid) wt.name]) :
        Except SyncError (ConvertUtil × JoplinServer × List ApiCall)) =
        .ok (cu', t', calls') := h
    injection h3 with h4
    simp only [Prod.mk.injEq] at h4
    obtain ⟨hcu, ht, -⟩ := h4
    subst hcu
    subst ht
    refine ⟨(add_tag_cache_fields cu _).1, (add_tag_cache_fields cu _).2,
      fun k hk => add_tag_mono cu _ k hk,
      add_tag_presence cu ⟨tojoplinid wt.guid, wt.name, wt.modified,
        wt.modified⟩, ?_⟩
    intro p hp
    rcases List.mem_append.mp hp with hin | hnew
    · exact htw p hin
    · rw [List.mem_singleton] at hnew
      subst hnew
      rfl

/-- Postcondition of the tag loop (`foldlM` form). -/
theorem sync_tags_fold_post :
    ∀ (l : List WizTag) (cu : ConvertUtil) (t : JoplinServer)
      (calls0 : List ApiCall) (cu' : ConvertUtil) (t' : JoplinServer)
      (calls' : List ApiCall),
      (∀ p ∈ t.tags, p.2.id = p.1) →
      List.foldlM Adapter.sync_tag_step
        ((cu, t, calls0) : ConvertUtil × JoplinServer × List ApiCall) l =
          .ok (cu', t', calls') →
      cu'.l2f_cache = cu.l2f_cache ∧ cu'.notes = cu.notes ∧
      (∀ k, (alookup k cu.tags).isSome → (alookup k cu'.tags).isSome) ∧
      (∀ wt ∈ l, (alookup (tojoplinid wt.guid) cu'.tags).isSome) := by
  intro l
  induction l with
  | nil =>
    intro cu t calls0 cu' t' calls' htw h
    simp only [List.foldlM_nil] at h
    have h2 : (Except.ok ((cu, t, calls0)) :
        Except SyncError (ConvertUtil × JoplinServer × List ApiCall)) =
        .ok (cu', t', calls') := h
    injection h2 with h3
    simp only [Prod.mk.injEq] at h3
    obtain ⟨h4, -, -⟩ := h3
    subst h4
    exact ⟨rfl, rfl, fun k hk => hk, fun wt hwt => absurd hwt (by simp)⟩
  | cons wt rest ih =>
    intro cu t calls0 cu' t' calls' htw h
    rw [except_foldlM_cons] at h
    split at h
    · cases h
    · rename_i acc2 hstep
      obtain ⟨cu2, t2, c2⟩ := acc2
      obtain ⟨hl2f, hnt, hmono, hpres, htw2⟩ := sync_tag_step_post htw hstep
      obtain ⟨il2f, int2, imono, ipres⟩ := ih cu2 t2 c2 cu' t' calls' htw2 h
      refine ⟨il2f.trans hl2f, int2.trans hnt,
        fun k hk => imono k (hmono k hk), ?_⟩
      intro wt2 hwt2
      rcases List.mem_cons.mp hwt2 with heq | hin
      · subst heq
        exact imono _ hpres
      · exact ipres wt2 hin

/-- Postcondition of `sync_tags`: every source tag's converted id ends
up cached; folders and notes are untouched. -/
theorem sync_tags_post {cu : ConvertUtil} {t : JoplinServer}
    {ws_tags : List WizTag} {cu' : ConvertUtil} {t' : JoplinServer}
    {calls' : List ApiCall}
    (htw : ∀ p ∈ t.tags, p.2.id = p.1)
    (h : Adapter.sync_tags cu t ws_tags = .ok (cu', t', calls')) :
    cu'.l2f_cache = cu.l2f_cache ∧ cu'.notes = cu.notes ∧
    (∀ wt ∈ ws_tags, (alookup (tojoplinid wt.guid) cu'.tags).isSome) := by
  simp only [Adapter.sync_tags] at h
  obtain ⟨hl2f, hnt, hmono, hpres⟩ := sync_tags_fold_post _ cu t [] cu' t'
    calls' htw h
  refine ⟨hl2f, hnt, fun wt hwt => ?_⟩
  by_cases hk : (alookup (tojoplinid wt.guid) cu.tags).isSome
  · exact hmono _ hk
  · exact hpres wt (List.mem_filter.mpr ⟨hwt, by simpa using hk⟩)

/-- An image upload leaves folders, tags and notes in the cache and the
target's tag table unchanged. -/
theorem upload_wiz_image_fields {cu : ConvertUtil} {t : JoplinServer}
    {im : WizImage} {cu2 : ConvertUtil} {t2 : JoplinServer}
    {ores : Option JoplinResource} {c2 : List ApiCall}
    (h : Adapter.upload_wiz_image cu t im = (cu2, t2, ores, c2)) :
    cu2.l2f_cache = cu.l2f_cache ∧ cu2.tags = cu.tags ∧
    cu2.notes = cu.notes ∧ t2.tags = t.tags := by
  simp only [Adapter.upload_wiz_image] at h
  split at h
  · simp only [Prod.mk.injEq] at h
    obtain ⟨h1, h2, -, -⟩ := h
    subst h1
    subst h2
    exact ⟨rfl, rfl, rfl, rfl⟩
  · split at h
    · simp only [Prod.mk.injEq] at h
      obtain ⟨h1, h2, -, -⟩ := h
      subst h1
      subst h2
      exact ⟨rfl, rfl, rfl, rfl⟩
    · split at h
      · simp only [Prod.mk.injEq] at h
        obtain ⟨h1, h2, -, -⟩ := h
        subst h1
        subst h2
        exact ⟨rfl, rfl, rfl, rfl⟩
      · simp only [Prod.mk.injEq] at h
        obtain ⟨h1, h2, -, -⟩ := h
        subst h1
        subst h2
        exact ⟨(add_resource_fields cu _).1, (add_resource_fields cu _).2.1,
          (add_resource_fields cu _).2.2, rfl⟩

/-- The image loop leaves folders, tags and notes in the cache
unchanged. -/
theorem image_loop_fields (note_id : Str) :
    ∀ (imgs : List WizImage) (cu : ConvertUtil) (t : JoplinServer)
      (jils : List (Str × JoplinInternalLink)),
      (Adapter.image_loop note_id cu t jils imgs).1.l2f_cache
          = cu.l2f_cache ∧
      (Adapter.image_loop note_id cu t jils imgs).1.tags = cu.tags ∧
      (Adapter.image_loop note_id cu t jils imgs).1.notes = cu.notes := by
  intro imgs
  induction imgs with
  | nil => intro cu t jils; exact ⟨rfl, rfl, rfl⟩
  | cons im rest ih =>
    intro cu t jils
    rcases hu : Adapter.upload_wiz_image cu t im with ⟨cu2, t2, ores, c2⟩
    obtain ⟨h1, h2, h3, -⟩ := upload_wiz_image_fields hu
    cases ores with
    | none =>
      have hred : Adapter.image_loop note_id cu t jils (im :: rest) =
          ((Adapter.image_loop note_id cu2 t2 jils rest).1,
           (Adapter.image_loop note_id cu2 t2 jils rest).2.1,
           c2 ++ (Adapter.image_loop note_id cu2 t2 jils rest).2.2.1,
           (Adapter.image_loop note_id cu2 t2 jils rest).2.2.2) := by
        simp only [Adapter.image_loop]
        rw [hu]
      rw [hred]
      obtain ⟨g1, g2, g3⟩ := ih cu2 t2 jils
      exact ⟨g1.trans h1, g2.trans h2, g3.trans h3⟩
    | some jr =>
      have hred : Adapter.image_loop note_id cu t jils (im :: rest) =
          ((Adapter.image_loop note_id cu2 t2
              (aupsert (note_id ++ '-' :: jr.id)
                ⟨note_id, jr.id, jr.title, "image".toList, im.outerhtml⟩
                jils) rest).1,
           (Adapter.image_loop note_id cu2 t2
              (aupsert (note_id ++ '-' :: jr.id)
                ⟨note_id, jr.id, jr.title, "image".toList, im.outerhtml⟩
                jils) rest).2.1,
           c2 ++ (Adapter.image_loop note_id cu2 t2
              (aupsert (note_id ++ '-' :: jr.id)
                ⟨note_id, jr.id, jr.title, "image".toList, im.outerhtml⟩
                jils) rest).2.2.1,
           (Adapter.image_loop note_id cu2 t2
              (aupsert (note_id ++ '-' :: jr.id)
                ⟨note_id, jr.id, jr.title, "image".toList, im.outerhtml⟩
                jils) rest).2.2.2) := by
        simp only [Adapter.image_loop]
        rw [hu]
        rfl
      rw [hred]
      obtain ⟨g1, g2, g3⟩ := ih cu2 t2 _
      exact ⟨g1.trans h1, g2.trans h2, g3.trans h3⟩

/-- The attachment loop is inert: no upload ever succeeds, so the
target, the calls and the link set come back unchanged. -/
theorem attachment_loop_id (note_id : Str) :
    ∀ (atts : List WizAttachment) (t : JoplinServer)
      (jils : List (Str × JoplinInternalLink)),
      Adapter.attachment_loop note_id t jils atts = (t, [], jils) := by
  intro atts
  induction atts with
  | nil => intro t jils; rfl
  | cons a rest ih =>
    intro t jils
    have hred : Adapter.attachment_loop note_id t jils (a :: rest) =
        ((Adapter.attachment_loop note_id t jils rest).1,
         [] ++ (Adapter.attachment_loop note_id t jils rest).2.1,
         (Adapter.attachment_loop note_id t jils rest).2.2) := rfl
    rw [hred, ih t jils]
    rfl

theorem add_note_presence_key (cu : ConvertUtil) (note : JoplinNote)
    (k : Str) (hk : note.id = k) :
    (alookup k (cu.add_note note).notes).isSome := by
  subst hk
  exact (add_note_fields cu note).2.2.2

/-- Postcondition of a successful `_sync_note`: folders and tags in the
cache are untouched, cached-note presence is monotone, and the
document's converted id ends up cached. -/
theorem sync_note_post {gt : Str → Str} {cu : ConvertUtil} {t : JoplinServer}
    {wd : WizDocument} {cu' : ConvertUtil} {t' : JoplinServer}
    {calls' : List ApiCall}
    (h : Adapter.sync_note gt cu t wd = .ok (cu', t', calls')) :
    cu'.l2f_cache = cu.l2f_cache ∧ cu'.tags = cu.tags ∧
    (∀ k, (alookup k cu.notes).isSome → (alookup k cu'.notes).isSome) ∧
    (alookup (tojoplinid wd.guid) cu'.notes).isSome := by
  simp only [Adapter.sync_note] at h
  split at h
  · rename_i n hn
    injection h with h2
    simp only [Prod.mk.injEq] at h2
    obtain ⟨hcu, -, -⟩ := h2
    subst hcu
    refine ⟨rfl, rfl, fun k hk => hk, ?_⟩
    have hn2 : alookup (tojoplinid wd.guid) cu.notes = some n := hn
    rw [hn2]
    rfl
  · split at h
    · cases h
    · rename_i folder hfold
      split at h
      · cases h
      · rename_i tag_dict htags
        injection h with h2
        simp only [Prod.mk.injEq] at h2
        obtain ⟨hcu, -, -⟩ := h2
        subst hcu
        refine ⟨?_, ?_, ?_, ?_⟩
        · exact ((add_note_fields _ _).1).trans
            ((image_loop_fields _ wd.images _ _ _).1)
        · exact ((add_note_fields _ _).2.1).trans
            ((image_loop_fields _ wd.images _ _ _).2.1)
        · intro k hk
          refine (add_note_fields _ _).2.2.1 k ?_
          rw [(image_loop_fields _ wd.images _ _ _).2.2]
          exact hk
        · exact add_note_presence_key _ _ _ rfl

/-- The document-loop step hides a plain `_sync_note` call. -/
theorem sync_doc_step_post {gt : Str → Str} {cu : ConvertUtil}
    {t : JoplinServer} {calls0 : List ApiCall} {wd : WizDocument}
    {acc2 : ConvertUtil × JoplinServer × List ApiCall}
    (h : Adapter.sync_doc_step gt (cu, t, calls0) wd = .ok acc2) :
    ∃ c3, Adapter.sync_note gt cu t wd = .ok (acc2.1, acc2.2.1, c3) := by
  simp only [Adapter.sync_doc_step] at h
  split at h
  · cases h
  · rename_i cu3 t3 c3 hnote
    injection h with h2
    refine ⟨c3, ?_⟩
    rw [← h2]
    exact hnote

/-- Postcondition of the document loop: every processed document's
converted id ends up cached; folders and tags are untouched. -/
theorem sync_doc_fold_post (gt : Str → Str) :
    ∀ (docs : List WizDocument) (cu : ConvertUtil) (t : JoplinServer)
      (calls0 : List ApiCall) (cu' : ConvertUtil) (t' : JoplinServer)
      (calls' : List ApiCall),
      List.foldlM (Adapter.sync_doc_step gt)
        ((cu, t, calls0) : ConvertUtil × JoplinServer × List ApiCall) docs =
          .ok (cu', t', calls') →
      cu'.l2f_cache = cu.l2f_cache ∧ cu'.tags = cu.tags ∧
      (∀ k, (alookup k cu.notes).isSome → (alookup k cu'.notes).isSome) ∧
      (∀ wd ∈ docs, (alookup (tojoplinid wd.guid) cu'.notes).isSome) := by
  intro docs
  induction docs with
  | nil =>
    intro cu t calls0 cu' t' calls' h
    simp only [List.foldlM_nil] at h
    have h2 : (Except.ok ((cu, t, calls0)) :
        Except SyncError (ConvertUtil × JoplinServer × List ApiCall)) =
        .ok (cu', t', calls') := h
    injection h2 with h3
    simp only [Prod.mk.injEq] at h3
    obtain ⟨h4, -, -⟩ := h3
    subst h4
    exact ⟨rfl, rfl, fun k hk => hk, fun wd hwd => absurd hwd (by simp)⟩
  | cons wd rest ih =>
    intro cu t calls0 cu' t' calls' h
    rw [except_foldlM_cons] at h
    split at h
    · cases h
    · rename_i acc2 hstep
      obtain ⟨cu2, t2, c2⟩ := acc2
      obtain ⟨c3, hnote⟩ := sync_doc_step_post hstep
      obtain ⟨nl2f, ntg, nmono, npres⟩ := sync_note_post hnote
      obtain ⟨il2f, itg, imono, ipres⟩ := ih cu2 t2 c2 cu' t' calls' h
      refine ⟨il2f.trans nl2f, itg.trans ntg,
        fun k hk => imono k (nmono k hk), ?_⟩
      intro wd2 hwd2
      rcases List.mem_cons.mp hwd2 with heq | hin
      · subst heq
        exact imono _ npres
      · exact ipres wd2 hin

/-- When every document's converted id is already cached, the document
loop is the identity on its accumulator. -/
theorem sync_doc_fold_skip (gt : Str → Str) :
    ∀ (docs : List WizDocument) (cu : ConvertUtil) (t : JoplinServer)
      (calls0 : List ApiCall),
      (∀ wd ∈ docs, (alookup (tojoplinid wd.guid) cu.notes).isSome) →
      List.foldlM (Adapter.sync_doc_step gt)
        ((cu, t, calls0) : ConvertUtil × JoplinServer × List ApiCall) docs =
          .ok (cu, t, calls0) := by
  intro docs
  induction docs with
  | nil => intro cu t calls0 _; rfl
  | cons wd rest ih =>
    intro cu t calls0 hall
    obtain ⟨n, hn⟩ := Option.isSome_iff_exists.mp
      (hall wd (List.mem_cons_self wd rest))
    have hnote : Adapter.sync_note gt cu t wd = .ok (cu, t, []) := by
      have hn2 : ConvertUtil.get_note cu (tojoplinid wd.guid) = some n := hn
      simp only [Adapter.sync_note]
      rw [hn2]
    have hstep : Adapter.sync_doc_step gt (cu, t, calls0) wd =
        .ok (cu, t, calls0) := by
      simp only [Adapter.sync_doc_step, hnote]
      rw [List.append_nil]
    rw [except_foldlM_cons, hstep]
    exact ih cu t calls0 (fun wd2 hwd2 => hall wd2 (List.mem_cons_of_mem wd hwd2))

/-- When every source tag's converted id is already cached, `sync_tags`
is the identity and makes no call. -/
theorem sync_tags_skip (cu : ConvertUtil) (t : JoplinServer)
    (ws_tags : List WizTag)
    (h : ∀ wt ∈ ws_tags, (alookup (tojoplinid wt.guid) cu.tags).isSome) :
    Adapter.sync_tags cu t ws_tags = .ok (cu, t, []) := by
  have hfil : (ws_tags.filter fun wt =>
      ¬ (alookup (tojoplinid wt.guid) cu.tags).isSome) = [] := by
    rw [List.filter_eq_nil_iff]
    intro wt hwt
    simp [h wt hwt]
  simp only [Adapter.sync_tags, hfil]
  rfl

/-- When the cache already satisfies the whole source — all chain
entries have target ids, all tag ids and all note ids are cached — a
full run makes zero creation calls and returns its input state. -/
theorem sync_all_skip (gt : Str → Str) (ws : WizStorage) (cu : ConvertUtil)
    (t : JoplinServer)
    (hids : ∀ p ∈ cu.l2f_cache, (p.2.id).isSome)
    (htags : ∀ wt ∈ ws.tags, (alookup (tojoplinid wt.guid) cu.tags).isSome)
    (hnotes : ∀ wd ∈ ws.documents,
      (alookup (tojoplinid wd.guid) cu.notes).isSome) :
    Adapter.sync_all gt ws cu t = .ok (cu, t, []) := by
  have hfil : ((cu.l2f_cache.map Prod.snd).filter fun v => v.id = none)
      = [] := by
    rw [List.filter_eq_nil_iff]
    intro v hv
    obtain ⟨p, hp, hpv⟩ := List.mem_map.mp hv
    have hs := hids p hp
    subst hpv
    cases hid : p.2.id with
    | none => rw [hid] at hs; cases hs
    | some x => simp [hid]
  have hw : cu.get_waiting_for_created_l2f = [] := by
    rw [ConvertUtil.get_waiting_for_created_l2f, hfil]
    exact List.mergeSort_nil
  have hfolders : Adapter.sync_folders cu t = (cu, t, [], none) := by
    rw [Adapter.sync_folders, hw]
    rfl
  have htagsr : Adapter.sync_tags cu t ws.tags = .ok (cu, t, []) :=
    sync_tags_skip cu t ws.tags htags
  have hdocs := sync_doc_fold_skip gt ws.documents cu t [] hnotes
  simp only [Adapter.sync_all, hfolders, htagsr, List.map_nil,
    List.nil_append]
  exact hdocs

/-- Postcondition of a successful full run over a well-formed cache and
target: every chain entry has a target id, every source tag's converted
id is cached, and every document's converted id is cached. -/
theorem sync_all_post {gt : Str → Str} {ws : WizStorage} {cu : ConvertUtil}
    {t : JoplinServer} {cu1 : ConvertUtil} {t1 : JoplinServer}
    {calls : List ApiCall}
    (hnd : (cu.l2f_cache.map Prod.fst).Nodup)
    (hloc : ∀ p ∈ cu.l2f_cache, p.2.location = p.1)
    (htw : ∀ p ∈ t.tags, p.2.id = p.1)
    (h : Adapter.sync_all gt ws cu t = .ok (cu1, t1, calls)) :
    (∀ p ∈ cu1.l2f_cache, (p.2.id).isSome) ∧
    (∀ wt ∈ ws.tags, (alookup (tojoplinid wt.guid) cu1.tags).isSome) ∧
    (∀ wd ∈ ws.documents,
      (alookup (tojoplinid wd.guid) cu1.notes).isSome) := by
  simp only [Adapter.sync_all] at h
  split at h
  · cases h
  · rename_i hfe
    split at h
    · cases h
    · rename_i cu2 t2 tagCalls hst
      have haux : Adapter.sync_folders_aux cu t cu.get_waiting_for_created_l2f
          = ((Adapter.sync_folders cu t).1, (Adapter.sync_folders cu t).2.1,
             (Adapter.sync_folders cu t).2.2.1, none) := by
        rw [← hfe]
        rfl
      have hinv0 : ∀ p ∈ cu.l2f_cache, p.2.id = none →
          p.1 ∈ cu.get_waiting_for_created_l2f.map Location2Folder.location := by
        intro p hp hid
        have h1 : p.2 ∈ cu.l2f_cache.map Prod.snd :=
          List.mem_map_of_mem Prod.snd hp
        have h2 : p.2 ∈ (cu.l2f_cache.map Prod.snd).filter
            fun v => v.id = none :=
          List.mem_filter.mpr ⟨h1, by simp [hid]⟩
        have h3 : p.2 ∈ cu.get_waiting_for_created_l2f := by
          rw [ConvertUtil.get_waiting_for_created_l2f]
          exact ((List.mergeSort_perm _ _).mem_iff).mpr h2
        have h4 := List.mem_map_of_mem Location2Folder.location h3
        rw [hloc p hp] at h4
        exact h4
      obtain ⟨hall, hftg, hfnt, hftt⟩ := sync_folders_aux_ids
        cu.get_waiting_for_created_l2f cu t _ _ _ hnd hloc hinv0 haux
      have htw2 : ∀ p ∈ (Adapter.sync_folders cu t).2.1.tags,
          p.2.id = p.1 := by
        intro p hp
        rw [hftt] at hp
        exact htw p hp
      obtain ⟨h2l2f, h2nt, h2pres⟩ := sync_tags_post htw2 hst
      obtain ⟨h3l2f, h3tg, h3mono, h3pres⟩ := sync_doc_fold_post gt
        ws.documents cu2 t2 _ cu1 t1 calls h
      refine ⟨?_, ?_, h3pres⟩
      · intro p hp
        rw [h3l2f, h2l2f] at hp
        exact hall p hp
      · intro wt hwt
        have hpr := h2pres wt hwt
        rw [h3tg]
        exact hpr

/-- C1: note-level sync is idempotent — a document whose converted
identifier already has a cached note is skipped by `_sync_note` with no
creation call and no state change — and, over a well-formed starting
cache (unique keys, location-keyed entries) and target (id-keyed tags),
a second full run after a successful one performs zero creation calls
and leaves the final state equal to that of the single run. -/
theorem sync_note_idempotent_and_second_run_no_calls
    (gt : Str → Str) (ws : WizStorage) (cu : ConvertUtil) (t : JoplinServer)
    (cu1 : ConvertUtil) (t1 : JoplinServer) (calls : List ApiCall)
    (hnd : (cu.l2f_cache.map Prod.fst).Nodup)
    (hloc : ∀ p ∈ cu.l2f_cache, p.2.location = p.1)
    (htw : ∀ p ∈ t.tags, p.2.id = p.1)
    (hrun1 : Adapter.sync_all gt ws cu t = .ok (cu1, t1, calls)) :
    (∀ (cu' : ConvertUtil) (t' : JoplinServer) (wd : WizDocument),
      (ConvertUtil.get_note cu' (tojoplinid wd.guid)).isSome →
      Adapter.sync_note gt cu' t' wd = .ok (cu', t', [])) ∧
    Adapter.sync_all gt ws cu1 t1 = .ok (cu1, t1, []) := by
  obtain ⟨hids, htags, hnotes⟩ := sync_all_post hnd hloc htw hrun1
  refine ⟨?_, sync_all_skip gt ws cu1 t1 hids htags hnotes⟩
  intro cu' t' wd hs
  obtain ⟨n, hn⟩ := Option.isSome_iff_exists.mp hs
  simp only [Adapter.sync_note]
  rw [hn]

def c1e : Location2Folder :=
  { location := "/a/".toList, title := "a".toList, parent_location := none
    level := 1, id := none, parent_id := none }

def c1cu : ConvertUtil :=
  { l2f_cache := [("/a/".toList, c1e)], tags := [], notes := []
    resources := [], internal_links := [], note_tag := [] }

def c1t : JoplinServer :=
  { folders := [], tags := [], resources := [], notes := [], next := 0 }

def c1tagw : WizTag :=
  { guid := "tg".toList, name := "T".toList, modified := 0 }

def c1doc : WizDocument :=
  { guid := "g".toList, title := "D".toList, location := "/a/".toList
    url := [], created := 0, modified := 0, is_markdown := false
    body := "b".toList, tags := [], attachments := [], images := []
    internal_links := [] }

def c1ws : WizStorage := { documents := [c1doc], tags := [c1tagw] }

def c1e2 : Location2Folder :=
  { location := "/a/".toList, title := "a".toList, parent_location := none
    level := 1, id := some "f0".toList, parent_id := none }

def c1tagj : JoplinTag :=
  { id := "tg".toList, title := "T".toList, created_time := 0
    updated_time := 0 }

def c1note : JoplinNote :=
  { id := "g".toList, title := "D".toList, body := "b".toList
    markup_language := false, parent_id := some "f0".toList, url := []
    location := [], created_time := 0, updated_time := 0, tags := []
    internal_links := [] }

def c1cu1 : ConvertUtil :=
  { l2f_cache := [("/a/".toList, c1e2)], tags := [("tg".toList, c1tagj)]
    notes := [("g".toList, c1note)], resources := [], internal_links := []
    note_tag := [] }

def c1t1 : JoplinServer :=
  { folders := [{ id := "f0".toList, title := "a".toList, parent_id := none }]
    tags := [("tg".toList, c1tagj)], resources := [], notes := [c1note]
    next := 1 }

def c1calls : List ApiCall :=
  [ApiCall.postFolder "a".toList none, ApiCall.postTag "tg".toList "T".toList,
   ApiCall.postNote "g".toList]

/-- Witness for C1 at a concrete one-folder, one-tag, one-document
source against an empty target: the first run creates the folder, the
tag and the note; every already-cached document is skipped; the second
full run makes zero calls and returns the first run's state unchanged. -/
theorem sync_note_idempotent_witness :
    Adapter.sync_all (fun s => s) c1ws c1cu c1t =
        .ok (c1cu1, c1t1, c1calls) ∧
    (∀ (cu' : ConvertUtil) (t' : JoplinServer) (wd : WizDocument),
      (ConvertUtil.get_note cu' (tojoplinid wd.guid)).isSome →
      Adapter.sync_note (fun s => s) cu' t' wd = .ok (cu', t', [])) ∧
    Adapter.sync_all (fun s => s) c1ws c1cu1 c1t1 = .ok (c1cu1, c1t1, []) := by
  have hgw : c1cu.get_waiting_for_created_l2f = [c1e] := by
    rw [ConvertUtil.get_waiting_for_created_l2f,
      show ((c1cu.l2f_cache.map Prod.snd).filter fun v => v.id = none)
        = [c1e] from rfl,
      List.mergeSort_singleton]
  have hrun1 : Adapter.sync_all (fun s => s) c1ws c1cu c1t =
      .ok (c1cu1, c1t1, c1calls) := by
    simp only [Adapter.sync_all, Adapter.sync_folders, hgw]
    rfl
  have h := sync_note_idempotent_and_second_run_no_calls (fun s => s) c1ws
    c1cu c1t c1cu1 c1t1 c1calls (by decide) (by decide) (by decide) hrun1
  exact ⟨hrun1, h.1, h.2⟩
